import Mathlib

/-!
# sonyc_record.c: marker synchronisation, frame assembly and bounded write

A shallow embedding of the capture loop of `main` in `src/sonyc_record.c`
(lines 101-162) together with the properties of its marker scan, its frame
fill loop and its size-capped write.

The device behind `read` and the file behind `fwrite` are scripted:

* `State.dev` lists what the coming `read` calls find. `ReadResult.data bs`
  are bytes waiting in the port; a `read` of `count` bytes takes at most
  `count` of them and leaves the others for the next call.
  `ReadResult.error` makes `read` return `-1`. An empty script, or an empty
  `data []`, makes `read` return `0`.
* `State.sink` lists how many bytes each coming `fwrite` call can take; an
  empty script takes everything.
* `State.sigint` says, cycle by cycle, whether `my_handler` runs during the
  cycle.

C integers are natural numbers or integers, reduced modulo `2^32`
(`unsigned`) or `2^64` (`unsigned long long`) wherever the C code stores
them.

`framebuf` is a list of the bytes stored in it, not cut at the 6000 bytes of
the array. A cycle that copies more than 6000 bytes to it (`copyInBounds`
fails) overruns the array in C; what the model says of the variables after
such a cycle is what the statements of the loop compute, and the statements
about `not_done` are made for cycles without the overrun.
-/

namespace SonycRecord

/-! ## Constants (lines 29-38) -/

/-- A `uint8_t`. -/
abbrev Byte := Fin 256

/-- Line 29. -/
def AUDIO_FRAME_SAMPLES : Nat := 2000

/-- Line 30. -/
def SAMP_SIZE : Nat := 3

/-- Line 31. -/
def AUDIO_FRAME_MARKER : Byte := 0x7F

/-- Line 32. -/
def WRITE_MAX_BYTES : Nat := 256 * 1024 * 1024

/-- Line 33: `sizeof(buf)`. -/
def SERIAL_BUF_BYTES : Nat := 8192

/-- The expression `AUDIO_FRAME_SAMPLES*SAMP_SIZE` of lines 38, 140 and 141:
`sizeof(framebuf)` and the length of a full frame. -/
def FRAME_LEN : Nat := AUDIO_FRAME_SAMPLES * SAMP_SIZE

/-- Number of values of an `unsigned`: `2^32`. -/
def U32 : Nat := 4294967296

/-- Number of values of an `unsigned long long`: `2^64`. -/
def U64 : Nat := 18446744073709551616

/-! ## The outside world -/

/-- What one `read` call finds in the port. -/
inductive ReadResult where
  | data (bs : List Byte)
  | error
  deriving DecidableEq, Repr

/-- One `fwrite(framebuf, 1, len, fp)` call: the count asked for, the bytes
of `framebuf` this cycle had stored below that count, and the count
returned. -/
structure Frame where
  len : Nat
  data : List Byte
  wrote : Nat
  deriving DecidableEq, Repr

/-- A line printed by the loop. -/
inductive Diag where
  | dropped (n : Nat)
  | perrorRead
  | perrorWrite
  deriving DecidableEq, Repr

/-- Why the capture loop ended. -/
inductive Exit where
  | stopped
  | eof
  | readError
  | writeError
  | capReached
  deriving DecidableEq, Repr

/-- How one cycle ends: `next` goes back to the loop test (`continue` or the
end of the body), `exit` is a `break`. -/
inductive Status where
  | next
  | exit (e : Exit)
  deriving DecidableEq, Repr

/-- The variables of `main` that live across cycles (`not_done`, `bytes`,
`marks`, `dropped`), the scripted world (`dev`, `sink`, `sigint`) and what
the program has done so far (`nreads` calls of `read`, the `fwrite` calls in
`written`, the printed lines in `diag`). -/
structure State where
  dev : List ReadResult
  sink : List Nat
  sigint : List Bool
  not_done : Bool
  bytes : Nat
  marks : Nat
  dropped : Nat
  nreads : Nat
  written : List Frame
  diag : List Diag
  deriving DecidableEq, Repr

/-- Lines 79-82: the state in which the loop is entered. -/
def initState (dev : List ReadResult) (sink : List Nat) (sigint : List Bool) : State :=
  { dev := dev, sink := sink, sigint := sigint, not_done := true, bytes := 0, marks := 0,
    dropped := 0, nreads := 0, written := [], diag := [] }

/-- The call `read(fd, p, count)`: the value returned, the bytes stored at
`p`, and the script left. -/
def read (dev : List ReadResult) (count : Nat) : Int × List Byte × List ReadResult :=
  match dev with
  | [] => (0, [], [])
  | ReadResult.error :: rest => (-1, [], rest)
  | ReadResult.data bs :: rest =>
    if bs.length ≤ count then ((bs.length : Int), bs, rest)
    else ((count : Int), bs.take count, ReadResult.data (bs.drop count) :: rest)

/-- The call `fwrite(framebuf, 1, len, fp)`: the count returned and the script
left. -/
def fwrite (sink : List Nat) (len : Nat) : Nat × List Nat :=
  match sink with
  | [] => (len, [])
  | room :: rest => (min len room, rest)

/-- Line 72, run when SIGINT is delivered. -/
def my_handler (s : State) : State :=
  { s with not_done := false }

/-- Signal delivery during one cycle. The body of the loop never reads
`not_done`, so the moment within the cycle does not matter. -/
def signals (s : State) : State :=
  match s.sigint with
  | [] => s
  | b :: rest => if b then my_handler { s with sigint := rest } else { s with sigint := rest }

/-! ## The marker scan (lines 117-120) -/

/-- Lines 118-119: the body of the scan loop, on byte `b`. -/
def scanStep (marks : Nat) (b : Byte) : Nat :=
  if b = AUDIO_FRAME_MARKER then (marks + 1) % U32 else 0

/-- Line 117: `for(...; i<r_got && marks<4; i++)`. The list holds
`buf[i..r_got)`; the result is `(i, marks)` when the loop is left. -/
def scan : List Byte → Nat → Nat → Nat × Nat
  | [], i, marks => (i, marks)
  | b :: rest, i, marks =>
    if marks < 4 then scan rest ((i + 1) % U32) (scanStep marks b) else (i, marks)

/-! ## Frame assembly (lines 135-145) -/

/-- Storing `bs` at `&framebuf[off]` (the `memcpy` of line 136 and the `read`
of line 143). `framebuf` is modelled by the bytes stored in it during the
current cycle; the list is not cut at the 6000 bytes of the array, so a store
that passes the end of `framebuf` keeps its bytes (see `copyInBounds`). -/
def store (framebuf : List Byte) (off : Nat) (bs : List Byte) : List Byte :=
  framebuf.take off ++ bs ++ framebuf.drop (off + bs.length)

/-- Lines 140-145: `while (frame_bytes < AUDIO_FRAME_SAMPLES*SAMP_SIZE)`.
`fuel` bounds the number of iterations; `none` means the loop is still
running when the fuel is used up. -/
def fillLoop : Nat → State → List Byte → Nat → Option (State × List Byte × Nat)
  | 0, s, framebuf, frame_bytes =>
    if frame_bytes < FRAME_LEN then none else some (s, framebuf, frame_bytes)
  | fuel + 1, s, framebuf, frame_bytes =>
    if frame_bytes < FRAME_LEN then
      let rem := FRAME_LEN - frame_bytes
      let r := read s.dev rem
      fillLoop fuel { s with dev := r.2.2, nreads := s.nreads + 1 }
        (store framebuf frame_bytes r.2.1)
        ((((frame_bytes : Int) + r.1) % (U32 : Int)).toNat)
    else some (s, framebuf, frame_bytes)

/-! ## The bounded write (lines 149-161) -/

/-- Lines 150-152: the count passed to `fwrite`. -/
def truncated (MAX bytes frame_bytes : Nat) : Nat :=
  if (frame_bytes + bytes) % U64 > MAX then
    ((((MAX : Int) - (bytes : Int)) % (U64 : Int)) % (U32 : Int)).toNat
  else frame_bytes

/-- Lines 149-161, with the cap `WRITE_MAX_BYTES` as the parameter `MAX`. -/
def boundedWrite (MAX : Nat) (s : State) (framebuf : List Byte) (frame_bytes : Nat) :
    Status × State :=
  let frame_bytes := truncated MAX s.bytes frame_bytes
  let w := fwrite s.sink frame_bytes
  let s := { s with sink := w.2,
                    written := s.written ++ [Frame.mk frame_bytes (framebuf.take frame_bytes) w.1] }
  if w.1 ≠ frame_bytes then
    (Status.exit Exit.writeError, { s with diag := s.diag ++ [Diag.perrorWrite] })
  else
    let s := { s with bytes := (s.bytes + frame_bytes) % U64 }
    if s.bytes ≥ MAX then (Status.exit Exit.capReached, s) else (Status.next, s)

/-! ## One cycle and the loop (lines 101-162) -/

/-- Lines 102-161: the body of `while(not_done)`. `none` means the fill loop
is still running when the fuel is used up. When more than `sizeof(framebuf)`
bytes follow the offset, the `memcpy` of line 136 writes past the end of
`framebuf` and C leaves what happens to the neighbouring variables
(`not_done` among them) undefined; the model then goes on with the bytes
copied and with every variable as the statements of the loop left it.
`copyInBounds` says that a cycle is free of this overrun. -/
def cycle (MAX : Nat) (fuel : Nat) (s : State) : Option (Status × State) :=
  let s := signals s
  let r := read s.dev SERIAL_BUF_BYTES
  let r_got := r.1
  let buf := r.2.1
  let s := { s with dev := r.2.2, nreads := s.nreads + 1 }
  if r_got = 0 then some (Status.exit Exit.eof, s)
  else if r_got < 0 then
    some (Status.exit Exit.readError, { s with diag := s.diag ++ [Diag.perrorRead] })
  else
    let sc := scan buf 0 s.marks
    let i := sc.1
    let s := { s with marks := sc.2, dropped := (s.dropped + i) % U32 }
    if s.marks ≠ 4 then some (Status.next, s)
    else
      let s := if i > 4 then { s with diag := s.diag ++ [Diag.dropped (i - 4)] } else s
      let s := { s with dropped := 0, marks := 0 }
      let r_got := r_got - (i : Int)
      let framebuf := if r_got > 0 then buf.drop i else []
      let frame_bytes := (r_got % (U32 : Int)).toNat
      match fillLoop fuel s framebuf frame_bytes with
      | none => none
      | some (s, framebuf, frame_bytes) => some (boundedWrite MAX s framebuf frame_bytes)

/-- Lines 101-162: `while(not_done) { ... }`. `fuel` bounds the number of
cycles and the number of iterations of each fill loop. -/
def captureLoop (MAX : Nat) : Nat → State → Option (Exit × State)
  | 0, _ => none
  | fuel + 1, s =>
    if s.not_done then
      match cycle MAX fuel s with
      | none => none
      | some (Status.next, s) => captureLoop MAX fuel s
      | some (Status.exit e, s) => some (e, s)
    else some (Exit.stopped, s)

/-- Line 165: the two numbers of `Wrote %llu bytes (%llu MB)`. -/
def report (s : State) : Nat × Nat :=
  (s.bytes, s.bytes / 1024 / 1024)

/-- Lines 79-82 and 101-165 of `main`: run the loop from the initial state and
print the totals. -/
def main (fuel : Nat) (dev : List ReadResult) (sink : List Nat) (sigint : List Bool) :
    Option (Exit × Nat × Nat) :=
  match captureLoop WRITE_MAX_BYTES fuel (initState dev sink sigint) with
  | none => none
  | some (e, s) => some (e, report s)

/-! ## Words of the specification -/

/-- Length of the run of marker bytes that ends the sequence `l`. -/
def trailingRun (l : List Byte) : Nat :=
  (l.reverse.takeWhile (fun b => b = AUDIO_FRAME_MARKER)).length

/-- The discarded count reported by a cycle that printed the lines `printed`:
the number of the `Dropped %u bytes` line, and 0 when the line is absent. -/
def reportedDiscarded (printed : List Diag) : Nat :=
  match printed with
  | Diag.dropped n :: _ => n
  | _ => 0

/-- Lines 141-144: one pass through the body of the fill loop, from the
state, buffer and `frame_bytes` at the loop test to those at the next one. -/
def fillStep (s : State) (framebuf : List Byte) (frame_bytes : Nat) :
    State × List Byte × Nat :=
  let rem := FRAME_LEN - frame_bytes
  let r := read s.dev rem
  ({ s with dev := r.2.2, nreads := s.nreads + 1 }, store framebuf frame_bytes r.2.1,
    ((((frame_bytes : Int) + r.1) % (U32 : Int)).toNat))

/-- The loop tests of the fill loop (line 140) reached from the loop test
`x0`: `x0` itself, and the one after each pass that starts with
`frame_bytes` below the frame length. -/
inductive FillReach (x0 : State × List Byte × Nat) : State × List Byte × Nat → Prop where
  | start : FillReach x0 x0
  | step (x : State × List Byte × Nat) : FillReach x0 x → x.2.2 < FRAME_LEN →
      FillReach x0 (fillStep x.1 x.2.1 x.2.2)

/-- The states in which the loop test of line 101 is reached in a run that
enters the loop in state `s0`: `s0` itself, and every state in which a cycle
that started from such a state with `not_done` set ends without `break`. -/
inductive LoopTop (MAX : Nat) (s0 : State) : State → Prop where
  | start : LoopTop MAX s0 s0
  | next (fuel : Nat) (s s' : State) : LoopTop MAX s0 s → s.not_done = true →
      cycle MAX fuel s = some (Status.next, s') → LoopTop MAX s0 s'

/-! ## Lemmas on the marker scan -/

theorem trailingRun_nil : trailingRun [] = 0 := rfl

theorem trailingRun_snoc (l : List Byte) (b : Byte) :
    trailingRun (l ++ [b]) = if b = AUDIO_FRAME_MARKER then trailingRun l + 1 else 0 := by
  unfold trailingRun
  by_cases hb : b = AUDIO_FRAME_MARKER <;> simp [List.takeWhile_cons, hb]

theorem trailingRun_replicate (m : Nat) :
    trailingRun (List.replicate m AUDIO_FRAME_MARKER) = m := by
  induction m with
  | zero => rfl
  | succ k ih =>
    rw [List.replicate_succ', trailingRun_snoc, ih]
    simp

theorem replicate_prefix_iff (a : Byte) :
    ∀ (r : List Byte) (k : Nat),
      List.replicate k a <+: r ↔ k ≤ (r.takeWhile (fun b => b = a)).length := by
  intro r
  induction r with
  | nil =>
    intro k
    cases k <;> simp [List.replicate_succ]
  | cons x xs ih =>
    intro k
    cases k with
    | zero => simp
    | succ k =>
      by_cases hx : x = a
      · subst hx
        simp [List.replicate_succ, List.takeWhile_cons, List.cons_prefix_cons, ih k]
      · have hx2 : ¬ a = x := fun h => hx h.symm
        simp [List.replicate_succ, List.takeWhile_cons, List.cons_prefix_cons, hx, hx2]

theorem replicate_suffix_iff (l : List Byte) (k : Nat) :
    List.replicate k AUDIO_FRAME_MARKER <:+ l ↔ k ≤ trailingRun l := by
  rw [← List.reverse_prefix, List.reverse_replicate]
  exact replicate_prefix_iff AUDIO_FRAME_MARKER l.reverse k

theorem scanStep_eq (h : List Byte) (b : Byte) (hlt : trailingRun h < 4) :
    scanStep (trailingRun h) b = trailingRun (h ++ [b]) := by
  rw [trailingRun_snoc]
  unfold scanStep U32
  by_cases hb : b = AUDIO_FRAME_MARKER
  · simp only [hb, if_true]
    omega
  · simp [hb]

theorem scan_marks_le : ∀ (l : List Byte) (i marks : Nat), marks ≤ 4 → (scan l i marks).2 ≤ 4 := by
  intro l
  induction l with
  | nil => intro i marks h; simpa [scan] using h
  | cons b rest ih =>
    intro i marks h
    unfold scan
    split
    · apply ih
      unfold scanStep U32
      split <;> omega
    · exact h

theorem scan_aux (h : List Byte) :
    ∀ (rest p : List Byte), p.length + rest.length < U32 →
      p.length ≤ (scan rest p.length (trailingRun (h ++ p))).1 ∧
      (scan rest p.length (trailingRun (h ++ p))).1 ≤ p.length + rest.length ∧
      (scan rest p.length (trailingRun (h ++ p))).2 =
        trailingRun (h ++ (p ++ rest).take (scan rest p.length (trailingRun (h ++ p))).1) ∧
      (∀ j, p.length ≤ j → j < (scan rest p.length (trailingRun (h ++ p))).1 →
        trailingRun (h ++ (p ++ rest).take j) < 4) ∧
      ((scan rest p.length (trailingRun (h ++ p))).2 < 4 →
        (scan rest p.length (trailingRun (h ++ p))).1 = p.length + rest.length) := by
  intro rest
  induction rest with
  | nil =>
    intro p _
    simp [scan]
    intro j h1 h2
    omega
  | cons b rest ih =>
    intro p hlen
    simp only [List.length_cons] at hlen
    by_cases hm : trailingRun (h ++ p) < 4
    · have hl : (p ++ [b]).length = p.length + 1 := by simp
      have hi : (p.length + 1) % U32 = p.length + 1 := Nat.mod_eq_of_lt (by omega)
      have hs : scanStep (trailingRun (h ++ p)) b = trailingRun (h ++ (p ++ [b])) := by
        rw [scanStep_eq _ _ hm, List.append_assoc]
      have hsc : scan (b :: rest) p.length (trailingRun (h ++ p)) =
          scan rest (p.length + 1) (trailingRun (h ++ (p ++ [b]))) := by
        conv_lhs => unfold scan
        rw [if_pos hm, hi, hs]
      have hcat : p ++ b :: rest = (p ++ [b]) ++ rest := by simp
      rw [hsc, hcat]
      have := ih (p ++ [b]) (by rw [hl]; omega)
      rw [hl] at this
      obtain ⟨h1, h2, h3, h4, h5⟩ := this
      simp only [List.length_cons]
      refine ⟨by omega, by omega, h3, ?_, ?_⟩
      · intro j hj1 hj2
        rcases Nat.eq_or_lt_of_le hj1 with heq | hlt
        · subst heq
          have : ((p ++ [b]) ++ rest).take p.length = p := by
            rw [List.append_assoc, List.take_left]
          rw [this]
          exact hm
        · exact h4 j hlt hj2
      · intro hlt
        have := h5 hlt
        omega
    · have hsc : scan (b :: rest) p.length (trailingRun (h ++ p)) =
          (p.length, trailingRun (h ++ p)) := by
        conv_lhs => unfold scan
        rw [if_neg hm]
      rw [hsc]
      simp only [List.length_cons]
      refine ⟨le_refl _, by omega, ?_, ?_, ?_⟩
      · rw [List.take_left]
      · intro j h1 h2
        omega
      · intro hlt
        exact absurd hlt hm

theorem scan_history (h chunk : List Byte) (hlen : chunk.length < U32) :
    (scan chunk 0 (trailingRun h)).1 ≤ chunk.length ∧
    (scan chunk 0 (trailingRun h)).2 = trailingRun (h ++ chunk.take (scan chunk 0 (trailingRun h)).1) ∧
    (∀ j, j < (scan chunk 0 (trailingRun h)).1 → trailingRun (h ++ chunk.take j) < 4) ∧
    ((scan chunk 0 (trailingRun h)).2 < 4 → (scan chunk 0 (trailingRun h)).1 = chunk.length) := by
  have := scan_aux h chunk [] (by simpa using hlen)
  simp only [List.length_nil, List.append_nil, List.nil_append, Nat.zero_add] at this
  obtain ⟨_, h2, h3, h4, h5⟩ := this
  exact ⟨h2, h3, fun j hj => h4 j (Nat.zero_le _) hj, h5⟩

theorem infix_iff_run (m : Nat) (chunk : List Byte) (hm : m ≤ 3) :
    List.replicate 4 AUDIO_FRAME_MARKER <:+: List.replicate m AUDIO_FRAME_MARKER ++ chunk ↔
      ∃ j, j ≤ chunk.length ∧
        4 ≤ trailingRun (List.replicate m AUDIO_FRAME_MARKER ++ chunk.take j) := by
  constructor
  · rintro ⟨s, t, hst⟩
    refine ⟨s.length + 4 - m, ?_, ?_⟩
    · have := congrArg List.length hst
      simp at this
      omega
    · rw [← replicate_suffix_iff]
      have htake : (List.replicate m AUDIO_FRAME_MARKER ++ chunk).take (s.length + 4) =
          s ++ List.replicate 4 AUDIO_FRAME_MARKER := by
        rw [← hst, List.append_assoc, List.take_append_eq_append_take]
        simp
      rw [List.take_append_eq_append_take, List.length_replicate,
        List.take_of_length_le (by simp; omega)] at htake
      rw [htake]
      exact List.suffix_append _ _
  · rintro ⟨j, _, hj⟩
    rw [← replicate_suffix_iff] at hj
    exact hj.isInfix.trans
      ((List.prefix_append_right_inj _).2 (List.take_prefix j chunk)).isInfix

theorem take_history (m j : Nat) (chunk : List Byte) :
    (List.replicate m AUDIO_FRAME_MARKER ++ chunk).take (m + j) =
      List.replicate m AUDIO_FRAME_MARKER ++ chunk.take j := by
  rw [List.take_append_eq_append_take, List.length_replicate,
    List.take_of_length_le (by simp), Nat.add_sub_cancel_left]

theorem serial_buf_lt_u32 : SERIAL_BUF_BYTES < U32 := by decide

theorem scan_exhausts (chunk : List Byte) (m : Nat)
    (hn : chunk.length ≤ SERIAL_BUF_BYTES) (hm : m ≤ 3) (hne : (scan chunk 0 m).2 ≠ 4) :
    (scan chunk 0 m).1 = chunk.length ∧ (scan chunk 0 m).2 < 4 ∧
    (scan chunk 0 m).2 = trailingRun (List.replicate m AUDIO_FRAME_MARKER ++ chunk) := by
  have hlen : chunk.length < U32 := lt_of_le_of_lt hn serial_buf_lt_u32
  have hs := scan_history (List.replicate m AUDIO_FRAME_MARKER) chunk hlen
  rw [trailingRun_replicate] at hs
  obtain ⟨_, h2, _, h4⟩ := hs
  have hle : (scan chunk 0 m).2 ≤ 4 := scan_marks_le chunk 0 m (by omega)
  have hlt : (scan chunk 0 m).2 < 4 := by omega
  have heq := h4 hlt
  refine ⟨heq, hlt, ?_⟩
  rw [h2, heq, List.take_length]

theorem scan_four_iff (chunk : List Byte) (m : Nat)
    (hn : chunk.length ≤ SERIAL_BUF_BYTES) (hm : m ≤ 3) :
    (scan chunk 0 m).2 = 4 ↔
      List.replicate 4 AUDIO_FRAME_MARKER <:+: List.replicate m AUDIO_FRAME_MARKER ++ chunk := by
  have hlen : chunk.length < U32 := lt_of_le_of_lt hn serial_buf_lt_u32
  have hs := scan_history (List.replicate m AUDIO_FRAME_MARKER) chunk hlen
  rw [trailingRun_replicate] at hs
  obtain ⟨h1, h2, h3, _⟩ := hs
  constructor
  · intro h4m
    rw [infix_iff_run m chunk hm]
    exact ⟨(scan chunk 0 m).1, h1, by rw [← h2, h4m]⟩
  · intro hin
    by_contra hne
    obtain ⟨heq, hlt, htr⟩ := scan_exhausts chunk m hn hm hne
    obtain ⟨j, hj, hrun⟩ := (infix_iff_run m chunk hm).1 hin
    rcases Nat.eq_or_lt_of_le hj with hje | hjl
    · rw [hje, List.take_length, ← htr] at hrun
      omega
    · have := h3 j (by rw [heq]; exact hjl)
      omega

/-! ## C1: what the marker scan finds -/

/-- C1: for a chunk of at most 8192 bytes scanned from an entry run count
`m ≤ 3`, the scan ends with `marks = 4` exactly when `m` markers followed by
the chunk contain four consecutive markers; then `i` is between 1 and the
chunk length, the first `m + i` bytes of that sequence end with four markers
and no shorter such sequence does (so `i` indexes the byte after the fourth
marker of the first run); otherwise `i` is the chunk length and `marks < 4`
is the length of the run of markers that ends the sequence. -/
theorem scan_finds_first_marker_run (chunk : List Byte) (m : Nat)
    (hn : chunk.length ≤ SERIAL_BUF_BYTES) (hm : m ≤ 3) :
    ((scan chunk 0 m).2 = 4 ↔
      List.replicate 4 AUDIO_FRAME_MARKER <:+: List.replicate m AUDIO_FRAME_MARKER ++ chunk) ∧
    ((scan chunk 0 m).2 = 4 →
      1 ≤ (scan chunk 0 m).1 ∧ (scan chunk 0 m).1 ≤ chunk.length ∧
      List.replicate 4 AUDIO_FRAME_MARKER <:+
        (List.replicate m AUDIO_FRAME_MARKER ++ chunk).take (m + (scan chunk 0 m).1) ∧
      ∀ j, j < (scan chunk 0 m).1 →
        ¬ List.replicate 4 AUDIO_FRAME_MARKER <:+
          (List.replicate m AUDIO_FRAME_MARKER ++ chunk).take (m + j)) ∧
    ((scan chunk 0 m).2 ≠ 4 →
      (scan chunk 0 m).1 = chunk.length ∧ (scan chunk 0 m).2 < 4 ∧
      (scan chunk 0 m).2 = trailingRun (List.replicate m AUDIO_FRAME_MARKER ++ chunk)) := by
  have hlen : chunk.length < U32 := lt_of_le_of_lt hn serial_buf_lt_u32
  have hs := scan_history (List.replicate m AUDIO_FRAME_MARKER) chunk hlen
  rw [trailingRun_replicate] at hs
  obtain ⟨h1, h2, h3, _⟩ := hs
  refine ⟨scan_four_iff chunk m hn hm, ?_, scan_exhausts chunk m hn hm⟩
  intro h4m
  refine ⟨?_, h1, ?_, ?_⟩
  · by_contra h0
    have hz : (scan chunk 0 m).1 = 0 := by omega
    rw [hz, List.take_zero, List.append_nil, trailingRun_replicate] at h2
    omega
  · rw [take_history, replicate_suffix_iff, ← h2, h4m]
  · intro j hj
    rw [take_history, replicate_suffix_iff]
    have := h3 j hj
    omega

/-- Witness of C1: a chunk with one garbage byte, a short run, and then a
full run, scanned from run count 0. -/
theorem scan_finds_first_marker_run_witness :
    ([0, 0x7F, 0x7F, 3, 0x7F, 0x7F, 0x7F, 0x7F, 9] : List Byte).length ≤ SERIAL_BUF_BYTES ∧
    (0 : Nat) ≤ 3 ∧
    ((scan ([0, 0x7F, 0x7F, 3, 0x7F, 0x7F, 0x7F, 0x7F, 9] : List Byte) 0 0).2 = 4 ↔
      List.replicate 4 AUDIO_FRAME_MARKER <:+:
        List.replicate 0 AUDIO_FRAME_MARKER ++
          ([0, 0x7F, 0x7F, 3, 0x7F, 0x7F, 0x7F, 0x7F, 9] : List Byte)) :=
  ⟨by decide, by decide,
    (scan_finds_first_marker_run [0, 0x7F, 0x7F, 3, 0x7F, 0x7F, 0x7F, 0x7F, 9] 0
      (by decide) (by decide)).1⟩

/-! ## Lemmas on the pieces of a cycle -/

theorem frame_len_eq : FRAME_LEN = 6000 := rfl

theorem signals_fields (s : State) :
    (signals s).dev = s.dev ∧ (signals s).sink = s.sink ∧ (signals s).bytes = s.bytes ∧
    (signals s).marks = s.marks ∧ (signals s).dropped = s.dropped ∧
    (signals s).nreads = s.nreads ∧ (signals s).written = s.written ∧
    (signals s).diag = s.diag := by
  unfold signals my_handler
  split
  · simp
  · split <;> simp

theorem read_cases (dev : List ReadResult) (count : Nat) :
    ((read dev count).1 = -1 ∧ (read dev count).2.1 = []) ∨
    ((read dev count).1 = ((read dev count).2.1.length : Int) ∧
      (read dev count).2.1.length ≤ count) := by
  unfold read
  split
  · right; simp
  · left; simp
  · split
    · right; simp; assumption
    · right
      simp only [List.length_take]
      omega

theorem read_data (bs : List Byte) (rest : List ReadResult) (count : Nat)
    (h : bs.length ≤ count) :
    read (ReadResult.data bs :: rest) count = ((bs.length : Int), bs, rest) := by
  simp [read, h]

theorem fillLoop_some :
    ∀ (fuel : Nat) (s : State) (fb : List Byte) (n : Nat) (r : State × List Byte × Nat),
      fillLoop fuel s fb n = some r →
      r.1.sink = s.sink ∧ r.1.sigint = s.sigint ∧ r.1.not_done = s.not_done ∧
      r.1.bytes = s.bytes ∧ r.1.marks = s.marks ∧ r.1.dropped = s.dropped ∧
      r.1.written = s.written ∧ r.1.diag = s.diag ∧ s.nreads ≤ r.1.nreads ∧
      FRAME_LEN ≤ r.2.2 ∧ (n < U32 → r.2.2 < U32) := by
  intro fuel
  induction fuel with
  | zero =>
    intro s fb n r h
    unfold fillLoop at h
    split at h
    · exact absurd h (by simp)
    · simp only [Option.some.injEq] at h
      subst h
      simp
      omega
  | succ k ih =>
    intro s fb n r h
    unfold fillLoop at h
    split at h
    · have := ih _ _ _ r h
      simp only at this
      obtain ⟨h1, h2, h3, h4, h5, h6, h7, h8, h9, h10, h11⟩ := this
      refine ⟨h1, h2, h3, h4, h5, h6, h7, h8, by omega, h10, fun _ => h11 ?_⟩
      unfold U32
      omega
    · simp only [Option.some.injEq] at h
      subst h
      simp
      omega

theorem scan_index_le (l : List Byte) (m : Nat) (hlen : l.length < U32) :
    (scan l 0 m).1 ≤ l.length := by
  have := (scan_history (List.replicate m AUDIO_FRAME_MARKER) l hlen).1
  rwa [trailingRun_replicate] at this

theorem scan_at_four (l : List Byte) (i : Nat) : scan l i 4 = (i, 4) := by
  cases l <;> simp [scan]

theorem scan_run : ∀ (j m i : Nat) (l : List Byte), m + j = 4 → i + j < U32 →
    scan (List.replicate j AUDIO_FRAME_MARKER ++ l) i m = (i + j, 4) := by
  intro j
  induction j with
  | zero =>
    intro m i l hm _
    simp only [Nat.add_zero] at hm
    subst hm
    simpa using scan_at_four l i
  | succ k ih =>
    intro m i l hm hi
    have hlt : m < 4 := by omega
    have hstep : scanStep m AUDIO_FRAME_MARKER = m + 1 := by
      unfold scanStep U32
      simp only [if_true]
      omega
    have hi1 : (i + 1) % U32 = i + 1 := Nat.mod_eq_of_lt (by omega)
    rw [List.replicate_succ, List.cons_append]
    conv_lhs => unfold scan
    rw [if_pos hlt, hstep, hi1, ih (m + 1) (i + 1) l (by omega) (by omega)]
    congr 1
    omega

theorem cycle_sync (MAX fuel : Nat) (s : State) (chunk : List Byte) (rest : List ReadResult)
    (i : Nat) (hdev : s.dev = ReadResult.data chunk :: rest) (h0 : 0 < chunk.length)
    (h1 : chunk.length ≤ SERIAL_BUF_BYTES) (hsc : scan chunk 0 s.marks = (i, 4)) :
    cycle MAX fuel s =
      (fillLoop fuel
        { signals s with
            dev := rest, nreads := s.nreads + 1, marks := 0, dropped := 0,
            diag := if i > 4 then s.diag ++ [Diag.dropped (i - 4)] else s.diag }
        (chunk.drop i) (chunk.length - i)).map
        (fun r => boundedWrite MAX r.1 r.2.1 r.2.2) := by
  have hi : i ≤ chunk.length := by
    have := scan_index_le chunk s.marks (lt_of_le_of_lt h1 serial_buf_lt_u32)
    rwa [hsc] at this
  obtain ⟨e1, e2, e3, e4, e5, e6, e7, e8⟩ := signals_fields s
  have hr : read (signals s).dev SERIAL_BUF_BYTES = ((chunk.length : Int), chunk, rest) := by
    rw [e1, hdev, read_data _ _ _ h1]
  have hne : ¬ ((chunk.length : Int) = 0) := by omega
  have hnl : ¬ ((chunk.length : Int) < 0) := by omega
  have hfb : (if (chunk.length : Int) - (i : Int) > 0 then chunk.drop i else []) =
      chunk.drop i := by
    split
    · rfl
    · symm
      apply List.drop_eq_nil_of_le
      omega
  have hn : (((chunk.length : Int) - (i : Int)) % (U32 : Int)).toNat = chunk.length - i := by
    have := lt_of_le_of_lt h1 serial_buf_lt_u32
    unfold U32 at *
    omega
  unfold cycle
  simp only [hr, hne, hnl, if_false, e4, hsc, ne_eq, not_true_eq_false, hfb, hn, e6, e8]
  by_cases h4 : i > 4
  · simp only [h4, if_true]
    cases fillLoop fuel _ (chunk.drop i) (chunk.length - i) <;> rfl
  · simp only [h4, if_false]
    cases fillLoop fuel _ (chunk.drop i) (chunk.length - i) <;> rfl

theorem store_at_end (fb bs : List Byte) : store fb fb.length bs = fb ++ bs := by
  unfold store
  rw [List.take_length, List.drop_eq_nil_of_le (by omega), List.append_nil]

theorem fillLoop_done (fuel : Nat) (s : State) (fb : List Byte) (n : Nat)
    (h : ¬ n < FRAME_LEN) : fillLoop fuel s fb n = some (s, fb, n) := by
  cases fuel <;> simp [fillLoop, h]

theorem fillLoop_data :
    ∀ (pre : List (List Byte)) (fuel : Nat) (s : State) (fb : List Byte)
      (rest : List ReadResult),
      s.dev = pre.map ReadResult.data ++ rest → (∀ bs ∈ pre, bs ≠ []) →
      fb.length ≤ FRAME_LEN → FRAME_LEN ≤ fb.length + pre.flatten.length →
      FRAME_LEN - fb.length ≤ fuel →
      ∃ s', fillLoop fuel s fb fb.length =
        some (s', (fb ++ pre.flatten).take FRAME_LEN, FRAME_LEN) := by
  intro pre
  induction pre with
  | nil =>
    intro fuel s fb rest _ _ hle hge _
    simp only [List.flatten_nil, List.length_nil, Nat.add_zero, List.append_nil] at hge ⊢
    have heq : fb.length = FRAME_LEN := le_antisymm hle hge
    refine ⟨s, ?_⟩
    rw [fillLoop_done fuel s fb fb.length (by omega), ← heq, List.take_length]
  | cons bs pre ih =>
    intro fuel s fb rest hdev hpre hle hge hfuel
    by_cases hfull : fb.length < FRAME_LEN
    · obtain ⟨k, rfl⟩ : ∃ k, fuel = k + 1 := ⟨fuel - 1, by omega⟩
      have hbs : bs ≠ [] := hpre bs (List.mem_cons_self _ _)
      have hbl : 0 < bs.length := List.length_pos.2 hbs
      simp only [List.map_cons, List.cons_append] at hdev
      by_cases hfit : bs.length ≤ FRAME_LEN - fb.length
      · have hr : read s.dev (FRAME_LEN - fb.length) =
            ((bs.length : Int), bs, pre.map ReadResult.data ++ rest) := by
          rw [hdev, read_data _ _ _ hfit]
        have hn : ((((fb.length : Int) + (bs.length : Int)) % (U32 : Int)).toNat) =
            (fb ++ bs).length := by
          rw [List.length_append]
          rw [frame_len_eq] at hfit hfull
          unfold U32
          omega
        unfold fillLoop
        simp only [hfull, if_true, hr, store_at_end, hn]
        have := ih k { s with dev := pre.map ReadResult.data ++ rest, nreads := s.nreads + 1 }
          (fb ++ bs) rest rfl (fun b hb => hpre b (List.mem_cons_of_mem _ hb))
          (by rw [List.length_append]; omega)
          (by
            rw [List.length_append]
            simp only [List.flatten_cons, List.length_append] at hge
            omega)
          (by rw [List.length_append]; omega)
        obtain ⟨s', hs'⟩ := this
        refine ⟨s', ?_⟩
        rw [hs']
        simp only [List.flatten_cons, List.append_assoc]
      · have hr : read s.dev (FRAME_LEN - fb.length) =
            (((FRAME_LEN - fb.length : Nat) : Int), bs.take (FRAME_LEN - fb.length),
              ReadResult.data (bs.drop (FRAME_LEN - fb.length)) ::
                (pre.map ReadResult.data ++ rest)) := by
          rw [hdev]
          simp [read, hfit]
        have hn : ((((fb.length : Int) + ((FRAME_LEN - fb.length : Nat) : Int)) %
            (U32 : Int)).toNat) = FRAME_LEN := by
          rw [frame_len_eq] at hfit hfull ⊢
          unfold U32
          omega
        unfold fillLoop
        simp only [hfull, if_true, hr, store_at_end, hn]
        refine ⟨{ s with
          dev := ReadResult.data (bs.drop (FRAME_LEN - fb.length)) ::
            (pre.map ReadResult.data ++ rest),
          nreads := s.nreads + 1 }, ?_⟩
        rw [fillLoop_done _ _ _ _ (by omega)]
        congr 3
        simp only [List.flatten_cons]
        rw [List.take_append_eq_append_take, List.take_of_length_le hle,
          List.take_append_of_le_length (by omega)]
    · have heq : fb.length = FRAME_LEN := by omega
      refine ⟨s, ?_⟩
      rw [fillLoop_done fuel s fb fb.length hfull]
      congr 2
      · rw [List.take_append_of_le_length (by omega), ← heq, List.take_length]

theorem boundedWrite_fields (MAX : Nat) (s : State) (fb : List Byte) (n : Nat) :
    (boundedWrite MAX s fb n).2.dev = s.dev ∧ (boundedWrite MAX s fb n).2.sigint = s.sigint ∧
    (boundedWrite MAX s fb n).2.not_done = s.not_done ∧
    (boundedWrite MAX s fb n).2.marks = s.marks ∧
    (boundedWrite MAX s fb n).2.dropped = s.dropped ∧
    (boundedWrite MAX s fb n).2.nreads = s.nreads := by
  unfold boundedWrite
  simp only []
  split
  · simp
  · split <;> simp

/-! ## C2: the frame assembled after synchronisation -/

/-- C2: in a cycle whose chunk synchronises at offset `i` with at most 6000
bytes after the offset, when the following reads find the non-empty byte
runs `pre` (so every read of the fill loop returns at least one byte, until
the frame is full), the frame passed to the write step has 6000 bytes and is
the first 6000 bytes of the chunk from `i` on followed by the bytes of `pre`
in order, whatever the values of these bytes; the write step starts from the
running total, sink and write history of the cycle start, and the run count
after the cycle is 0. -/
theorem cycle_assembles_frame (MAX fuel : Nat) (s : State) (chunk : List Byte)
    (pre : List (List Byte)) (rest : List ReadResult) (i : Nat)
    (hdev : s.dev = ReadResult.data chunk :: (pre.map ReadResult.data ++ rest))
    (h0 : 0 < chunk.length) (h1 : chunk.length ≤ SERIAL_BUF_BYTES)
    (hsc : scan chunk 0 s.marks = (i, 4))
    (htail : chunk.length - i ≤ FRAME_LEN)
    (hpre : ∀ bs ∈ pre, bs ≠ [])
    (hge : FRAME_LEN ≤ chunk.length - i + pre.flatten.length)
    (hfuel : FRAME_LEN ≤ fuel) :
    ((chunk.drop i ++ pre.flatten).take FRAME_LEN).length = FRAME_LEN ∧
    ∃ s1, cycle MAX fuel s =
        some (boundedWrite MAX s1 ((chunk.drop i ++ pre.flatten).take FRAME_LEN) FRAME_LEN) ∧
      s1.bytes = s.bytes ∧ s1.sink = s.sink ∧ s1.written = s.written ∧
      (boundedWrite MAX s1 ((chunk.drop i ++ pre.flatten).take FRAME_LEN) FRAME_LEN).2.marks
        = 0 := by
  constructor
  · rw [List.length_take, List.length_append, List.length_drop]
    omega
  · rw [cycle_sync MAX fuel s chunk _ i hdev h0 h1 hsc]
    have hlen : (chunk.drop i).length = chunk.length - i := List.length_drop i chunk
    have := fillLoop_data pre fuel
      { signals s with
          dev := pre.map ReadResult.data ++ rest, nreads := s.nreads + 1, marks := 0,
          dropped := 0,
          diag := if i > 4 then s.diag ++ [Diag.dropped (i - 4)] else s.diag }
      (chunk.drop i) rest rfl hpre (by rw [hlen]; exact htail) (by rw [hlen]; exact hge)
      (by omega)
    obtain ⟨s', hs'⟩ := this
    rw [hlen] at hs'
    have hf := fillLoop_some _ _ _ _ _ hs'
    obtain ⟨e1, e2, e3, e4, e5, e6, e7, e8⟩ := signals_fields s
    refine ⟨s', ?_, ?_, ?_, ?_, ?_⟩
    · rw [hs']
      rfl
    · rw [hf.2.2.2.1]
      exact e3
    · rw [hf.1]
      exact e2
    · rw [hf.2.2.2.2.2.2.1]
      exact e7
    · rw [(boundedWrite_fields _ _ _ _).2.2.2.1, hf.2.2.2.2.1]

/-- Witness of C2: four markers and two payload bytes in the chunk, and a
following read that finds 6000 marker-valued bytes. -/
theorem cycle_assembles_frame_witness :
    (initState [ReadResult.data [0x7F, 0x7F, 0x7F, 0x7F, 1, 2],
        ReadResult.data (List.replicate 6000 0x7F)] [] []).dev =
      ReadResult.data [0x7F, 0x7F, 0x7F, 0x7F, 1, 2] ::
        ([List.replicate 6000 (0x7F : Byte)].map ReadResult.data ++ []) ∧
    scan [0x7F, 0x7F, 0x7F, 0x7F, 1, 2] 0
      (initState [ReadResult.data [0x7F, 0x7F, 0x7F, 0x7F, 1, 2],
        ReadResult.data (List.replicate 6000 0x7F)] [] []).marks = (4, 4) ∧
    (∀ bs ∈ [List.replicate 6000 (0x7F : Byte)], bs ≠ []) ∧
    FRAME_LEN ≤ ([0x7F, 0x7F, 0x7F, 0x7F, 1, 2] : List Byte).length - 4 +
      [List.replicate 6000 (0x7F : Byte)].flatten.length ∧
    ∃ s1, cycle WRITE_MAX_BYTES 6000
        (initState [ReadResult.data [0x7F, 0x7F, 0x7F, 0x7F, 1, 2],
          ReadResult.data (List.replicate 6000 0x7F)] [] []) =
        some (boundedWrite WRITE_MAX_BYTES s1
          ((([0x7F, 0x7F, 0x7F, 0x7F, 1, 2] : List Byte).drop 4 ++
            [List.replicate 6000 (0x7F : Byte)].flatten).take FRAME_LEN) FRAME_LEN) :=
  have hpre : ∀ bs ∈ [List.replicate 6000 (0x7F : Byte)], bs ≠ [] := by
    intro bs hbs
    rw [List.mem_singleton] at hbs
    subst hbs
    intro hnil
    have hlen := congrArg List.length hnil
    rw [List.length_replicate] at hlen
    exact absurd hlen (by decide)
  have hge : FRAME_LEN ≤ ([0x7F, 0x7F, 0x7F, 0x7F, 1, 2] : List Byte).length - 4 +
      [List.replicate 6000 (0x7F : Byte)].flatten.length := by
    simp only [List.flatten_cons, List.flatten_nil, List.append_nil, List.length_replicate,
      frame_len_eq, List.length_cons, List.length_nil]
    decide
  ⟨rfl, by decide, hpre, hge,
    (cycle_assembles_frame WRITE_MAX_BYTES 6000
      (initState [ReadResult.data [0x7F, 0x7F, 0x7F, 0x7F, 1, 2],
        ReadResult.data (List.replicate 6000 0x7F)] [] [])
      [0x7F, 0x7F, 0x7F, 0x7F, 1, 2] [List.replicate 6000 0x7F] [] 4
      rfl (by decide) (by decide) (by decide) (by decide) hpre hge (by decide)).2.imp
      (fun _ h => h.1)⟩

/-! ## Lemmas on the bounded write -/

theorem truncated_eq (MAX bytes L : Nat) (hM : MAX < 9223372036854775808)
    (hb : bytes < MAX) (hL : L < U32) : truncated MAX bytes L = min L (MAX - bytes) := by
  unfold truncated U64
  unfold U32 at hL ⊢
  split <;> omega

theorem boundedWrite_eq (MAX : Nat) (s : State) (fb : List Byte) (L : Nat)
    (hM : MAX < 9223372036854775808) (hb : s.bytes < MAX) (hL : L < U32) :
    boundedWrite MAX s fb L =
      if (fwrite s.sink (min L (MAX - s.bytes))).1 ≠ min L (MAX - s.bytes) then
        (Status.exit Exit.writeError,
          { s with
              sink := (fwrite s.sink (min L (MAX - s.bytes))).2,
              written := s.written ++ [Frame.mk (min L (MAX - s.bytes))
                (fb.take (min L (MAX - s.bytes))) (fwrite s.sink (min L (MAX - s.bytes))).1],
              diag := s.diag ++ [Diag.perrorWrite] })
      else
        (if MAX ≤ s.bytes + min L (MAX - s.bytes) then Status.exit Exit.capReached
          else Status.next,
          { s with
              sink := (fwrite s.sink (min L (MAX - s.bytes))).2,
              written := s.written ++ [Frame.mk (min L (MAX - s.bytes))
                (fb.take (min L (MAX - s.bytes))) (fwrite s.sink (min L (MAX - s.bytes))).1],
              bytes := s.bytes + min L (MAX - s.bytes) }) := by
  have hmod : (s.bytes + min L (MAX - s.bytes)) % U64 = s.bytes + min L (MAX - s.bytes) := by
    apply Nat.mod_eq_of_lt
    unfold U64
    omega
  unfold boundedWrite
  simp only [truncated_eq MAX s.bytes L hM hb hL, hmod]
  split
  · rfl
  · split <;> rfl

theorem captureLoop_exit (MAX fuel : Nat) (s s' : State) (e : Exit)
    (hnd : s.not_done = true) (h : cycle MAX fuel s = some (Status.exit e, s')) :
    captureLoop MAX (fuel + 1) s = some (e, s') := by
  conv_lhs => unfold captureLoop
  rw [if_pos hnd, h]

theorem captureLoop_next (MAX fuel : Nat) (s s' : State)
    (hnd : s.not_done = true) (h : cycle MAX fuel s = some (Status.next, s')) :
    captureLoop MAX (fuel + 1) s = captureLoop MAX fuel s' := by
  conv_lhs => unfold captureLoop
  rw [if_pos hnd, h]

/-! ## C4: the bounded write step -/

/-- C4: with the cap as a parameter `MAX` (below `2^63`), for a running
total `bytes < MAX`, an assembled frame of `L` bytes and a write that succeeds,
the write step asks `fwrite` for exactly `min L (MAX - bytes)` bytes, fewer
than `L` only when `bytes + L > MAX`; it sets `bytes` to `bytes` plus that
number; it breaks with the cap reached exactly when the new `bytes >= MAX` and
otherwise goes on to the next cycle; and a loop whose cycle ends with this
write step ends right there when the cap is reached, in the state the write
left (no further read, no further frame). -/
theorem bounded_write_step (MAX : Nat) (s : State) (fb : List Byte) (L : Nat)
    (hM : MAX < 9223372036854775808) (hb : s.bytes < MAX) (hL : L < U32)
    (hw : (fwrite s.sink (min L (MAX - s.bytes))).1 = min L (MAX - s.bytes)) :
    (boundedWrite MAX s fb L).2.written =
      s.written ++ [Frame.mk (min L (MAX - s.bytes)) (fb.take (min L (MAX - s.bytes)))
        (min L (MAX - s.bytes))] ∧
    (min L (MAX - s.bytes) < L ↔ MAX < s.bytes + L) ∧
    (boundedWrite MAX s fb L).2.bytes = s.bytes + min L (MAX - s.bytes) ∧
    ((boundedWrite MAX s fb L).1 = Status.exit Exit.capReached ↔
      MAX ≤ (boundedWrite MAX s fb L).2.bytes) ∧
    ((boundedWrite MAX s fb L).1 = Status.next ↔ (boundedWrite MAX s fb L).2.bytes < MAX) ∧
    (∀ (fuel : Nat) (s0 : State), s0.not_done = true →
      cycle MAX fuel s0 = some (boundedWrite MAX s fb L) →
      captureLoop MAX (fuel + 1) s0 =
        if MAX ≤ (boundedWrite MAX s fb L).2.bytes then
          some (Exit.capReached, (boundedWrite MAX s fb L).2)
        else captureLoop MAX fuel (boundedWrite MAX s fb L).2) := by
  have hbw := boundedWrite_eq MAX s fb L hM hb hL
  rw [if_neg (by rw [hw]; exact fun h => h rfl), hw] at hbw
  have hbytes : (boundedWrite MAX s fb L).2.bytes = s.bytes + min L (MAX - s.bytes) := by
    rw [hbw]
  have hst : (boundedWrite MAX s fb L).1 =
      if MAX ≤ s.bytes + min L (MAX - s.bytes) then Status.exit Exit.capReached
      else Status.next := by
    rw [hbw]
  refine ⟨by rw [hbw], by omega, hbytes, ?_, ?_, ?_⟩
  · rw [hst, hbytes]
    split <;> simp [*]
  · rw [hst, hbytes]
    split
    · simp
      omega
    · simp
      omega
  · intro fuel s0 hnd hcy
    rw [hbytes]
    by_cases hcap : MAX ≤ s.bytes + min L (MAX - s.bytes)
    · rw [if_pos hcap] at hst ⊢
      exact captureLoop_exit MAX fuel s0 _ _ hnd (by rw [hcy, ← hst])
    · rw [if_neg hcap] at hst ⊢
      exact captureLoop_next MAX fuel s0 _ hnd (by rw [hcy, ← hst])

/-- Witness of C4: the example of the specification, `MAX = 10000`, a frame
of 6000 bytes and 6000 bytes written so far. -/
theorem bounded_write_step_witness :
    ({ initState [] [] [] with bytes := 6000 } : State).bytes < 10000 ∧
    (6000 : Nat) < U32 ∧
    (boundedWrite 10000 { initState [] [] [] with bytes := 6000 }
      (List.replicate 6000 0) 6000).2.written =
        [Frame.mk 4000 ((List.replicate 6000 (0 : Byte)).take 4000) 4000] ∧
    (boundedWrite 10000 { initState [] [] [] with bytes := 6000 }
      (List.replicate 6000 0) 6000).2.bytes = 10000 ∧
    (boundedWrite 10000 { initState [] [] [] with bytes := 6000 }
      (List.replicate 6000 0) 6000).1 = Status.exit Exit.capReached :=
  have h := bounded_write_step 10000 { initState [] [] [] with bytes := 6000 }
    (List.replicate 6000 0) 6000 (by decide) (by decide) (by decide) (by decide)
  ⟨by decide, by decide, h.1, h.2.2.1, h.2.2.2.1.2 (by rw [h.2.2.1]; decide)⟩

/-! ## What one cycle can do -/

theorem cycle_result (MAX fuel : Nat) (s : State) (st : Status) (s' : State)
    (h : cycle MAX fuel s = some (st, s')) :
    (s'.bytes = s.bytes ∧ s'.written = s.written ∧ s'.sink = s.sink ∧
      s'.nreads = s.nreads + 1 ∧ (s.marks < 4 → s'.marks < 4) ∧
      (st = Status.exit Exit.eof ∨ st = Status.exit Exit.readError ∨ st = Status.next)) ∨
    (∃ (s1 : State) (fb : List Byte) (n : Nat),
      FRAME_LEN ≤ n ∧ n < U32 ∧ s1.bytes = s.bytes ∧ s1.written = s.written ∧
      s1.sink = s.sink ∧ s1.marks = 0 ∧ (st, s') = boundedWrite MAX s1 fb n) := by
  obtain ⟨e1, e2, e3, e4, e5, e6, e7, e8⟩ := signals_fields s
  unfold cycle at h
  simp only [] at h
  split at h
  · left
    simp only [Option.some.injEq, Prod.mk.injEq] at h
    obtain ⟨hst, hs⟩ := h
    subst hs hst
    simp [e2, e3, e4, e6, e7]
  · split at h
    · left
      simp only [Option.some.injEq, Prod.mk.injEq] at h
      obtain ⟨hst, hs⟩ := h
      subst hs hst
      simp [e2, e3, e4, e6, e7]
    · split at h
      · left
        rename_i hne
        simp only [Option.some.injEq, Prod.mk.injEq] at h
        obtain ⟨hst, hs⟩ := h
        subst hs hst
        simp only [e2, e3, e4, e6, e7, true_and, or_true, and_true]
        intro hlt
        have := scan_marks_le (read (signals s).dev SERIAL_BUF_BYTES).2.1 0 s.marks (by omega)
        simp only [e4] at hne
        omega
      · right
        split at h
        · exact absurd h (by simp)
        · rename_i s2 fb n hfill
          simp only [Option.some.injEq] at h
          have hf := fillLoop_some _ _ _ _ _ hfill
          simp only at hf
          obtain ⟨f1, f2, f3, f4, f5, f6, f7, f8, f9, f10, f11⟩ := hf
          refine ⟨s2, fb, n, f10, f11 ?_, ?_, ?_, ?_, f5, h.symm⟩
          · unfold U32
            omega
          · rw [f4]
            split <;> exact e3
          · rw [f7]
            split <;> exact e7
          · rw [f1]
            split <;> exact e2

/-! ## The running total and the cap -/

theorem write_max_bytes_eq : WRITE_MAX_BYTES = 268435456 := rfl

theorem sum_len_append (ws : List Frame) (f : Frame) :
    ((ws ++ [f]).map Frame.len).sum = (ws.map Frame.len).sum + f.len := by
  simp

theorem fwrite_le (sink : List Nat) (len : Nat) : (fwrite sink len).1 ≤ len := by
  unfold fwrite
  split
  · exact le_refl _
  · exact Nat.min_le_left _ _

theorem cycle_total (MAX fuel : Nat) (s : State) (st : Status) (s' : State)
    (hM : MAX < 9223372036854775808) (hb : s.bytes < MAX)
    (hsum : (s.written.map Frame.len).sum = s.bytes)
    (h : cycle MAX fuel s = some (st, s')) :
    s'.bytes ≤ MAX ∧ (s'.written.map Frame.len).sum ≤ MAX ∧
    (st = Status.next → s'.bytes < MAX ∧ (s'.written.map Frame.len).sum = s'.bytes) := by
  rcases cycle_result MAX fuel s st s' h with ⟨h1, h2, _, _, _, _⟩ | ⟨s1, fb, n, _, hn, h1, h2, _, _, hbw⟩
  · rw [h1, h2, hsum]
    exact ⟨le_of_lt hb, le_of_lt hb, fun _ => ⟨hb, rfl⟩⟩
  · rw [boundedWrite_eq MAX s1 fb n hM (by rw [h1]; exact hb) hn] at hbw
    rw [h1, h2] at hbw
    split at hbw
    · simp only [Prod.mk.injEq] at hbw
      obtain ⟨hst, hs⟩ := hbw
      subst hs hst
      simp only [sum_len_append, hsum]
      refine ⟨le_of_lt hb, by omega, fun hc => ?_⟩
      exact absurd hc (by simp)
    · rename_i hw
      simp only [ne_eq, not_not] at hw
      simp only [Prod.mk.injEq] at hbw
      obtain ⟨hst, hs⟩ := hbw
      subst hs
      simp only [sum_len_append, hsum]
      refine ⟨by omega, by omega, fun hc => ?_⟩
      rw [hst] at hc
      split at hc
      · exact absurd hc (by simp)
      · exact ⟨by omega, trivial⟩

theorem loopTop_total (MAX : Nat) (s0 s : State) (hM : MAX < 9223372036854775808)
    (hb0 : s0.bytes < MAX) (hsum0 : (s0.written.map Frame.len).sum = s0.bytes)
    (hs : LoopTop MAX s0 s) :
    s.bytes < MAX ∧ (s.written.map Frame.len).sum = s.bytes := by
  induction hs with
  | start => exact ⟨hb0, hsum0⟩
  | next fuel s s' _ _ hcy ih =>
    exact (cycle_total MAX fuel s Status.next s' hM ih.1 ih.2 hcy).2.2 rfl

/-! ## C5: the cap is never exceeded -/

/-- C5: in every run of the capture loop from the initial state, whatever
the reads return and whether or not the writes succeed, at every loop test the
running total `bytes` is below `WRITE_MAX_BYTES` and equals the sum of the
lengths asked from `fwrite` so far; after every cycle, however it ends,
`bytes` and the sum of the lengths asked from `fwrite` are at most
`WRITE_MAX_BYTES`; and for every 32-bit `frame_bytes` the sum
`frame_bytes + bytes` of the truncation test stays below `2^64`, so that the
count passed to `fwrite` is `min frame_bytes (WRITE_MAX_BYTES - bytes)`. -/
theorem total_never_exceeds_cap (dev : List ReadResult) (sink : List Nat)
    (sigint : List Bool) (s : State)
    (hs : LoopTop WRITE_MAX_BYTES (initState dev sink sigint) s) :
    s.bytes < WRITE_MAX_BYTES ∧ (s.written.map Frame.len).sum = s.bytes ∧
    (∀ (fuel : Nat) (st : Status) (s' : State),
      cycle WRITE_MAX_BYTES fuel s = some (st, s') →
      s'.bytes ≤ WRITE_MAX_BYTES ∧ (s'.written.map Frame.len).sum ≤ WRITE_MAX_BYTES) ∧
    (∀ frame_bytes : Nat, frame_bytes < U32 →
      frame_bytes + s.bytes < U64 ∧
      truncated WRITE_MAX_BYTES s.bytes frame_bytes =
        min frame_bytes (WRITE_MAX_BYTES - s.bytes)) := by
  have hM : WRITE_MAX_BYTES < 9223372036854775808 := by decide
  have hb0 : (initState dev sink sigint).bytes < WRITE_MAX_BYTES := by
    show 0 < WRITE_MAX_BYTES
    decide
  have htop := loopTop_total WRITE_MAX_BYTES _ s hM hb0 rfl hs
  refine ⟨htop.1, htop.2, ?_, ?_⟩
  · intro fuel st s' hcy
    have := cycle_total WRITE_MAX_BYTES fuel s st s' hM htop.1 htop.2 hcy
    exact ⟨this.1, this.2.1⟩
  · intro frame_bytes hfb
    refine ⟨?_, truncated_eq _ _ _ hM htop.1 hfb⟩
    have := htop.1
    rw [write_max_bytes_eq] at this
    unfold U32 at hfb
    unfold U64
    omega

/-- Witness of C5: the loop test reached after one cycle whose read returned
a single byte that is not a marker. -/
theorem total_never_exceeds_cap_witness :
    LoopTop WRITE_MAX_BYTES (initState [ReadResult.data [0]] [] [])
      { initState [] [] [] with nreads := 1, dropped := 1 } ∧
    ({ initState [] [] [] with nreads := 1, dropped := 1 } : State).bytes < WRITE_MAX_BYTES :=
  have hs : LoopTop WRITE_MAX_BYTES (initState [ReadResult.data [0]] [] [])
      { initState [] [] [] with nreads := 1, dropped := 1 } :=
    LoopTop.next 0 _ _ LoopTop.start rfl (by decide)
  ⟨hs, (total_never_exceeds_cap [ReadResult.data [0]] [] [] _ hs).1⟩

/-! ## A chunk that starts with the four markers -/

theorem cycle_marked_chunk (MAX fuel : Nat) (s : State) (p : List Byte)
    (rest : List ReadResult)
    (hdev : s.dev = ReadResult.data (List.replicate 4 AUDIO_FRAME_MARKER ++ p) :: rest)
    (hm : s.marks = 0) (hp1 : FRAME_LEN ≤ p.length) (hp2 : p.length + 4 ≤ SERIAL_BUF_BYTES)
    (hM : MAX < 9223372036854775808) (hb : s.bytes < MAX) (hsink : s.sink = []) :
    cycle MAX fuel s =
      some (if MAX ≤ s.bytes + min p.length (MAX - s.bytes) then Status.exit Exit.capReached
          else Status.next,
        { signals s with
            dev := rest, nreads := s.nreads + 1, marks := 0, dropped := 0, sink := [],
            written := s.written ++ [Frame.mk (min p.length (MAX - s.bytes))
              (p.take (min p.length (MAX - s.bytes))) (min p.length (MAX - s.bytes))],
            bytes := s.bytes + min p.length (MAX - s.bytes) }) := by
  obtain ⟨e1, e2, e3, e4, e5, e6, e7, e8⟩ := signals_fields s
  have hlen : (List.replicate 4 AUDIO_FRAME_MARKER ++ p).length = p.length + 4 := by
    rw [List.length_append, List.length_replicate, Nat.add_comm]
  have hsc : scan (List.replicate 4 AUDIO_FRAME_MARKER ++ p) 0 s.marks = (4, 4) := by
    rw [hm]
    exact scan_run 4 0 0 p rfl (by decide)
  have hdrop : (List.replicate 4 AUDIO_FRAME_MARKER ++ p).drop 4 = p := by
    rw [List.drop_left' (List.length_replicate 4 AUDIO_FRAME_MARKER)]
  have hu : p.length < U32 := by
    have := serial_buf_lt_u32
    omega
  rw [cycle_sync MAX fuel s _ rest 4 hdev (by rw [hlen]; omega) (by rw [hlen]; exact hp2) hsc,
    hdrop, hlen, Nat.add_sub_cancel, fillLoop_done _ _ _ _ (by omega)]
  simp only [Option.map_some', gt_iff_lt, lt_self_iff_false, if_false]
  rw [boundedWrite_eq MAX _ p p.length hM (by simpa [e3] using hb) hu]
  simp only [e2, e3, e7, e8, hsink, fwrite, ne_eq, not_true_eq_false, if_false]

theorem cycle_oversized (fuel : Nat) (p : List Byte) (hp : p.length = 7000) :
    (cycle WRITE_MAX_BYTES fuel
        (initState [ReadResult.data (List.replicate 4 AUDIO_FRAME_MARKER ++ p)] [] [])).map
        (fun r => (r.1, r.2.written, r.2.bytes)) =
      some (Status.next, [Frame.mk 7000 p 7000], 7000) := by
  have hmin : min p.length (WRITE_MAX_BYTES - 0) = 7000 := by
    rw [hp]
    decide
  have htake : p.take 7000 = p := List.take_of_length_le (by rw [hp])
  have hcap : ¬ WRITE_MAX_BYTES ≤ 0 + 7000 := by decide
  have h := cycle_marked_chunk WRITE_MAX_BYTES fuel
    (initState [ReadResult.data (List.replicate 4 AUDIO_FRAME_MARKER ++ p)] [] []) p [] rfl rfl
    (by rw [hp]; decide) (by rw [hp]; decide)
    (by decide) (by show 0 < WRITE_MAX_BYTES; decide) rfl
  rw [h]
  simp only [initState, hmin, htake, hcap, if_false, Option.map_some', List.nil_append]

/-! ## C3: a chunk with more than a frame after the markers -/

/-- C3 fails on the code: when the first read returns the four markers
followed by 7000 payload bytes, the cycle copies all 7000 bytes to `framebuf`
(which holds 6000), skips the fill loop and asks `fwrite` for 7000 bytes,
although `frame_bytes + bytes = 7000` is far below the cap. -/
theorem oversized_tail_is_written (fuel : Nat) :
    (cycle WRITE_MAX_BYTES fuel
        (initState [ReadResult.data (List.replicate 4 AUDIO_FRAME_MARKER ++
          List.replicate 7000 0)] [] [])).map (fun r => (r.1, r.2.written, r.2.bytes)) =
      some (Status.next, [Frame.mk 7000 (List.replicate 7000 0) 7000], 7000) ∧
    FRAME_LEN < 7000 ∧ 7000 + 0 ≤ WRITE_MAX_BYTES :=
  ⟨cycle_oversized fuel (List.replicate 7000 0) (List.length_replicate 7000 0),
    by decide, by decide⟩

/-! ## A chunk that does not complete a marker run -/

theorem cycle_nosync (MAX fuel : Nat) (s : State) (chunk : List Byte)
    (rest : List ReadResult) (hdev : s.dev = ReadResult.data chunk :: rest)
    (h0 : 0 < chunk.length) (h1 : chunk.length ≤ SERIAL_BUF_BYTES)
    (hsc : (scan chunk 0 s.marks).2 ≠ 4) :
    cycle MAX fuel s =
      some (Status.next,
        { signals s with
            dev := rest, nreads := s.nreads + 1, marks := (scan chunk 0 s.marks).2,
            dropped := (s.dropped + (scan chunk 0 s.marks).1) % U32 }) := by
  obtain ⟨e1, e2, e3, e4, e5, e6, e7, e8⟩ := signals_fields s
  have hr : read (signals s).dev SERIAL_BUF_BYTES = ((chunk.length : Int), chunk, rest) := by
    rw [e1, hdev, read_data _ _ _ h1]
  have hne : ¬ ((chunk.length : Int) = 0) := by omega
  have hnl : ¬ ((chunk.length : Int) < 0) := by omega
  unfold cycle
  simp only [hr, hne, hnl, if_false, e4, e5, e6, ne_eq, hsc, not_false_eq_true, if_true]

/-! ## C6: a marker run split between two chunks -/

/-- C6: for `k` in 1..3, when chunk `A` holds no four consecutive markers and
ends with exactly `k` markers and chunk `B` begins with `4 - k` markers, the
scan of `A` from run count 0 consumes all of `A` and leaves run count `k`, and
the scan of `B` from `k` stops with `marks = 4` at offset `4 - k`; so the
cycle on `A` goes back to the loop test with nothing written, the running
total unchanged and `B` as the next read, and the cycle on `B` enters the fill
loop with `framebuf` holding `B` from index `4 - k` on (from `B[2]` for the
2+2 split) and then goes to the write step. -/
theorem split_marker_run (k : Nat) (A B : List Byte) (hk1 : 1 ≤ k) (hk3 : k ≤ 3)
    (hA : A.length ≤ SERIAL_BUF_BYTES) (hB : B.length ≤ SERIAL_BUF_BYTES)
    (hno : ¬ List.replicate 4 AUDIO_FRAME_MARKER <:+: A)
    (hend : trailingRun A = k)
    (hbeg : List.replicate (4 - k) AUDIO_FRAME_MARKER <+: B) :
    scan A 0 0 = (A.length, k) ∧ scan B 0 k = (4 - k, 4) ∧
    ∀ (MAX fuel : Nat) (s : State) (rest : List ReadResult),
      s.marks = 0 → s.dev = ReadResult.data A :: ReadResult.data B :: rest →
      ∃ s1 s2, cycle MAX fuel s = some (Status.next, s1) ∧
        s1.written = s.written ∧ s1.bytes = s.bytes ∧ s1.marks = k ∧
        s1.dev = ReadResult.data B :: rest ∧
        cycle MAX fuel s1 =
          (fillLoop fuel s2 (B.drop (4 - k)) (B.length - (4 - k))).map
            (fun r => boundedWrite MAX r.1 r.2.1 r.2.2) ∧
        s2.written = s.written ∧ s2.bytes = s.bytes ∧ s2.dev = rest ∧ s2.marks = 0 := by
  have hA0 : 0 < A.length := by
    rcases A with _ | ⟨a, t⟩
    · rw [trailingRun_nil] at hend
      omega
    · simp
  have hscanA2 : (scan A 0 0).2 ≠ 4 := by
    intro h4
    exact hno (by simpa using (scan_four_iff A 0 hA (by omega)).1 h4)
  have hscanA : scan A 0 0 = (A.length, k) := by
    obtain ⟨x1, _, x3⟩ := scan_exhausts A 0 hA (by omega) hscanA2
    simp only [List.replicate_zero, List.nil_append, hend] at x3
    exact Prod.ext x1 x3
  obtain ⟨t, ht⟩ := hbeg
  have hBlen : B.length = (4 - k) + t.length := by
    rw [← ht, List.length_append, List.length_replicate]
  have hscanB : scan B 0 k = (4 - k, 4) := by
    rw [← ht]
    have := scan_run (4 - k) k 0 t (by omega) (by unfold U32; omega)
    simpa using this
  refine ⟨hscanA, hscanB, ?_⟩
  intro MAX fuel s rest hm hdev
  obtain ⟨e1, e2, e3, e4, e5, e6, e7, e8⟩ := signals_fields s
  have hc1 := cycle_nosync MAX fuel s A (ReadResult.data B :: rest) hdev hA0 hA
    (by rw [hm]; exact hscanA2)
  rw [hm, hscanA] at hc1
  have hc2 := cycle_sync MAX fuel
    { signals s with
        dev := ReadResult.data B :: rest, nreads := s.nreads + 1, marks := k,
        dropped := (s.dropped + A.length) % U32 }
    B rest (4 - k) rfl (by omega) hB hscanB
  exact ⟨_, _, hc1, e7, e3, rfl, rfl, hc2, by simp [signals_fields], by simp [signals_fields],
    rfl, rfl⟩

/-- Witness of C6: the 2+2 split. -/
theorem split_marker_run_witness :
    ¬ List.replicate 4 AUDIO_FRAME_MARKER <:+: ([1, 0x7F, 0x7F] : List Byte) ∧
    trailingRun [1, 0x7F, 0x7F] = 2 ∧
    List.replicate (4 - 2) AUDIO_FRAME_MARKER <+: ([0x7F, 0x7F, 5, 6] : List Byte) ∧
    scan [1, 0x7F, 0x7F] 0 0 = (([1, 0x7F, 0x7F] : List Byte).length, 2) ∧
    scan [0x7F, 0x7F, 5, 6] 0 2 = (4 - 2, 4) :=
  have h := split_marker_run 2 [1, 0x7F, 0x7F] [0x7F, 0x7F, 5, 6] (by decide) (by decide)
    (by decide) (by decide) (by decide) (by decide) (by decide)
  ⟨by decide, by decide, by decide, h.1, h.2.1⟩

/-! ## The run counter across cycles -/

theorem cycle_marks (MAX fuel : Nat) (s : State) (st : Status) (s' : State)
    (hm : s.marks < 4) (h : cycle MAX fuel s = some (st, s')) : s'.marks < 4 := by
  rcases cycle_result MAX fuel s st s' h with ⟨_, _, _, _, h5, _⟩ | ⟨s1, fb, n, _, _, _, _, _, h6, hbw⟩
  · exact h5 hm
  · have := (boundedWrite_fields MAX s1 fb n).2.2.2.1
    rw [← hbw] at this
    simp only at this
    omega

theorem loopTop_marks (MAX : Nat) (s0 s : State) (hm : s0.marks < 4)
    (hs : LoopTop MAX s0 s) : s.marks < 4 := by
  induction hs with
  | start => exact hm
  | next fuel s s' _ _ hcy ih => exact cycle_marks MAX fuel s Status.next s' ih hcy

/-! ## C7: the run counter stays within 0..4 -/

/-- C7: at every loop test of a run from the initial state the run counter
`marks` is below 4; from there the scan of any bytes (so the scan of the
chunk up to any point) leaves `marks ≤ 4`, and the cycle, however it ends,
leaves `marks < 4`; one scan step on a byte other than 0x7F gives 0 whatever
the counter was, and one scan step on 0x7F adds exactly 1 (for every counter
whose successor fits in an `unsigned`, in particular for the counters below 4
on which the loop runs it). -/
theorem marks_stay_in_range (MAX : Nat) (dev : List ReadResult) (sink : List Nat)
    (sigint : List Bool) (s : State) (hs : LoopTop MAX (initState dev sink sigint) s) :
    s.marks < 4 ∧
    (∀ (l : List Byte) (i : Nat), (scan l i s.marks).2 ≤ 4) ∧
    (∀ (fuel : Nat) (st : Status) (s' : State),
      cycle MAX fuel s = some (st, s') → s'.marks < 4) ∧
    (∀ (marks : Nat) (b : Byte), b ≠ AUDIO_FRAME_MARKER → scanStep marks b = 0) ∧
    (∀ marks : Nat, marks + 1 < U32 → scanStep marks AUDIO_FRAME_MARKER = marks + 1) := by
  have hm0 : (initState dev sink sigint).marks < 4 := by
    show 0 < 4
    decide
  have hm : s.marks < 4 := loopTop_marks MAX _ s hm0 hs
  refine ⟨hm, ?_, ?_, ?_, ?_⟩
  · intro l i
    exact scan_marks_le l i s.marks (le_of_lt hm)
  · intro fuel st s' hcy
    exact cycle_marks MAX fuel s st s' hm hcy
  · intro marks b hb
    unfold scanStep
    rw [if_neg hb]
  · intro marks hlt
    unfold scanStep
    rw [if_pos rfl]
    exact Nat.mod_eq_of_lt hlt

/-- Witness of C7: the loop test reached after a cycle whose read returned
one garbage byte and three markers. -/
theorem marks_stay_in_range_witness :
    LoopTop WRITE_MAX_BYTES (initState [ReadResult.data [0, 0x7F, 0x7F, 0x7F]] [] [])
      { initState [] [] [] with nreads := 1, dropped := 4, marks := 3 } ∧
    ({ initState [] [] [] with nreads := 1, dropped := 4, marks := 3 } : State).marks < 4 :=
  have hs : LoopTop WRITE_MAX_BYTES (initState [ReadResult.data [0, 0x7F, 0x7F, 0x7F]] [] [])
      { initState [] [] [] with nreads := 1, dropped := 4, marks := 3 } :=
    LoopTop.next 0 _ _ LoopTop.start rfl (by decide)
  ⟨hs, (marks_stay_in_range WRITE_MAX_BYTES [ReadResult.data [0, 0x7F, 0x7F, 0x7F]] [] [] _
    hs).1⟩

/-! ## A chunk that holds a whole frame after the markers -/

theorem boundedWrite_diag (MAX : Nat) (s : State) (fb : List Byte) (n : Nat) :
    (boundedWrite MAX s fb n).2.diag = s.diag ∨
    (boundedWrite MAX s fb n).2.diag = s.diag ++ [Diag.perrorWrite] := by
  unfold boundedWrite
  simp only []
  split
  · right; rfl
  · left
    split <;> rfl

theorem cycle_sync_diag (MAX fuel : Nat) (s : State) (chunk : List Byte)
    (rest : List ReadResult) (i : Nat) (st : Status) (s' : State)
    (hdev : s.dev = ReadResult.data chunk :: rest) (h0 : 0 < chunk.length)
    (h1 : chunk.length ≤ SERIAL_BUF_BYTES) (hsc : scan chunk 0 s.marks = (i, 4))
    (hcy : cycle MAX fuel s = some (st, s')) :
    ∃ tail, (tail = [] ∨ tail = [Diag.perrorWrite]) ∧
      s'.diag = s.diag ++ ((if i > 4 then [Diag.dropped (i - 4)] else []) ++ tail) := by
  rw [cycle_sync MAX fuel s chunk rest i hdev h0 h1 hsc] at hcy
  cases hfill : fillLoop fuel
      { signals s with
          dev := rest, nreads := s.nreads + 1, marks := 0, dropped := 0,
          diag := if i > 4 then s.diag ++ [Diag.dropped (i - 4)] else s.diag }
      (chunk.drop i) (chunk.length - i) with
  | none =>
    rw [hfill] at hcy
    exact absurd hcy (by simp)
  | some r =>
    rw [hfill] at hcy
    simp only [Option.map_some', Option.some.injEq] at hcy
    have hd := (fillLoop_some _ _ _ _ _ hfill).2.2.2.2.2.2.2.1
    simp only at hd
    have hs' : s'.diag = (boundedWrite MAX r.1 r.2.1 r.2.2).2.diag := by rw [hcy]
    have hbase : r.1.diag = s.diag ++ (if i > 4 then [Diag.dropped (i - 4)] else []) := by
      rw [hd]
      split <;> simp
    rcases boundedWrite_diag MAX r.1 r.2.1 r.2.2 with hb | hb
    · exact ⟨[], Or.inl rfl, by rw [hs', hb, hbase, List.append_nil]⟩
    · exact ⟨[Diag.perrorWrite], Or.inr rfl, by rw [hs', hb, hbase, List.append_assoc]⟩

theorem fillLoop_eof :
    ∀ (fuel : Nat) (s : State) (fb : List Byte) (n : Nat),
      s.dev = [] → n < FRAME_LEN → fillLoop fuel s fb n = none := by
  intro fuel
  induction fuel with
  | zero =>
    intro s fb n _ hn
    simp [fillLoop, hn]
  | succ k ih =>
    intro s fb n hdev hn
    have hr : read s.dev (FRAME_LEN - n) = (0, [], []) := by
      rw [hdev]
      rfl
    have hn' : ((((n : Int) + 0) % (U32 : Int)).toNat) = n := by
      rw [frame_len_eq] at hn
      unfold U32
      omega
    unfold fillLoop
    simp only [hn, if_true, hr, hn']
    exact ih _ _ _ rfl hn

theorem cycle_markers_then_eof (fuel : Nat) :
    cycle WRITE_MAX_BYTES fuel
      (initState [ReadResult.data (List.replicate 4 AUDIO_FRAME_MARKER)] [] []) = none := by
  rw [cycle_sync WRITE_MAX_BYTES fuel _ (List.replicate 4 AUDIO_FRAME_MARKER) [] 4 rfl
    (by decide) (by decide) (by decide)]
  rw [fillLoop_eof fuel _ _ _ rfl (by decide)]
  rfl

theorem cycle_zero_read_example (fuel : Nat) (p : List Byte) (hp : p.length = 6000) :
    cycle WRITE_MAX_BYTES (fuel + 2)
        (initState [ReadResult.data (List.replicate 4 AUDIO_FRAME_MARKER),
          ReadResult.data [], ReadResult.data p] [] []) =
      some (Status.next,
        { initState [] [] [] with
            nreads := 3, written := [Frame.mk 6000 p 6000], bytes := 6000 }) := by
  have htake : p.take 6000 = p := List.take_of_length_le (by rw [hp])
  have hstore : store [] 0 p = p := by simp [store]
  have hfill : ∀ s : State, s.dev = [ReadResult.data [], ReadResult.data p] →
      fillLoop (fuel + 2) s [] 0 =
        some ({ s with dev := [], nreads := s.nreads + 1 + 1 }, p, 6000) := by
    intro s hdev
    have hr1 : read s.dev (FRAME_LEN - 0) = (0, [], [ReadResult.data p]) := by
      rw [hdev]
      rfl
    have hr2 : read [ReadResult.data p] (FRAME_LEN - 0) = ((6000 : Int), p, []) := by
      have := read_data p [] (FRAME_LEN - 0) (by rw [hp]; decide)
      rw [hp] at this
      exact this
    have hz : ((((0 : Nat) : Int) + 0) % (U32 : Int)).toNat = 0 := by decide
    have h6 : ((((0 : Nat) : Int) + 6000) % (U32 : Int)).toNat = 6000 := by decide
    have hlt : (0 : Nat) < FRAME_LEN := by decide
    rw [fillLoop, if_pos hlt]
    simp only [hr1, hz]
    rw [fillLoop, if_pos hlt]
    simp only [hr2, h6, hstore]
    rw [fillLoop_done _ _ _ _ (by decide)]
    simp [store]
  have hsc : scan (List.replicate 4 AUDIO_FRAME_MARKER) 0 0 = (4, 4) := by decide
  rw [cycle_sync WRITE_MAX_BYTES (fuel + 2) _ (List.replicate 4 AUDIO_FRAME_MARKER)
    [ReadResult.data [], ReadResult.data p] 4 rfl (by decide) (by decide) hsc]
  have hd : (List.replicate 4 AUDIO_FRAME_MARKER).drop 4 = [] := by decide
  have hl : (List.replicate 4 AUDIO_FRAME_MARKER).length - 4 = 0 := by decide
  rw [hd, hl, hfill _ rfl]
  simp only [Option.map_some']
  rw [boundedWrite_eq WRITE_MAX_BYTES _ p 6000 (by decide)
    (by show 0 < WRITE_MAX_BYTES; decide) (by decide)]
  have hmin : min 6000 (WRITE_MAX_BYTES - 0) = 6000 := by decide
  simp only [signals, initState, hmin, htake, fwrite]
  rfl

/-! ## C9: end of stream inside the fill loop -/

/-- C9 fails on the code: the fill loop does not look at what `read`
returns. When the stream ends right after the four markers, every read of the
fill loop returns 0, `frame_bytes` stays 0 and neither the cycle nor the
capture loop ends, whatever the fuel: nothing is reported. When a single
read returns 0 and 6000 bytes follow, the loop just reads again, and the frame
is written and counted. -/
theorem zero_read_in_fill_loop_is_ignored (fuel : Nat) :
    cycle WRITE_MAX_BYTES fuel
      (initState [ReadResult.data (List.replicate 4 AUDIO_FRAME_MARKER)] [] []) = none ∧
    captureLoop WRITE_MAX_BYTES fuel
      (initState [ReadResult.data (List.replicate 4 AUDIO_FRAME_MARKER)] [] []) = none ∧
    cycle WRITE_MAX_BYTES (fuel + 2)
        (initState [ReadResult.data (List.replicate 4 AUDIO_FRAME_MARKER),
          ReadResult.data [], ReadResult.data (List.replicate 6000 0)] [] []) =
      some (Status.next,
        { initState [] [] [] with
            nreads := 3, written := [Frame.mk 6000 (List.replicate 6000 0) 6000],
            bytes := 6000 }) := by
  refine ⟨cycle_markers_then_eof fuel, ?_,
    cycle_zero_read_example fuel (List.replicate 6000 0) (List.length_replicate 6000 0)⟩
  cases fuel with
  | zero => rfl
  | succ k =>
    unfold captureLoop
    rw [cycle_markers_then_eof k]
    rfl

/-! ## A read that fails at the top of a cycle -/

theorem cycle_eof (MAX fuel : Nat) (s : State)
    (hr : (read s.dev SERIAL_BUF_BYTES).1 = 0) :
    cycle MAX fuel s =
      some (Status.exit Exit.eof,
        { signals s with
            dev := (read s.dev SERIAL_BUF_BYTES).2.2, nreads := s.nreads + 1 }) := by
  obtain ⟨e1, e2, e3, e4, e5, e6, e7, e8⟩ := signals_fields s
  unfold cycle
  simp only [e1, e6, hr, if_true]

theorem cycle_read_error (MAX fuel : Nat) (s : State)
    (hr : (read s.dev SERIAL_BUF_BYTES).1 < 0) :
    cycle MAX fuel s =
      some (Status.exit Exit.readError,
        { signals s with
            dev := (read s.dev SERIAL_BUF_BYTES).2.2, nreads := s.nreads + 1,
            diag := s.diag ++ [Diag.perrorRead] }) := by
  obtain ⟨e1, e2, e3, e4, e5, e6, e7, e8⟩ := signals_fields s
  have hne : ¬ (read s.dev SERIAL_BUF_BYTES).1 = 0 := by omega
  unfold cycle
  simp only [e1, e6, e8, hr, hne, if_true, if_false]

/-! ## A write that returns fewer bytes than asked -/

theorem boundedWrite_short (MAX : Nat) (s : State) (fb : List Byte) (L : Nat)
    (hw : (fwrite s.sink (truncated MAX s.bytes L)).1 ≠ truncated MAX s.bytes L) :
    boundedWrite MAX s fb L =
      (Status.exit Exit.writeError,
        { s with
            sink := (fwrite s.sink (truncated MAX s.bytes L)).2,
            written := s.written ++ [Frame.mk (truncated MAX s.bytes L)
              (fb.take (truncated MAX s.bytes L)) (fwrite s.sink (truncated MAX s.bytes L)).1],
            diag := s.diag ++ [Diag.perrorWrite] }) := by
  unfold boundedWrite
  simp only [ne_eq, hw, not_false_eq_true, if_true]

theorem boundedWrite_full (MAX : Nat) (s : State) (fb : List Byte) (L : Nat)
    (hw : (fwrite s.sink (truncated MAX s.bytes L)).1 = truncated MAX s.bytes L) :
    boundedWrite MAX s fb L =
      (if (s.bytes + truncated MAX s.bytes L) % U64 ≥ MAX then Status.exit Exit.capReached
        else Status.next,
        { s with
            sink := (fwrite s.sink (truncated MAX s.bytes L)).2,
            written := s.written ++ [Frame.mk (truncated MAX s.bytes L)
              (fb.take (truncated MAX s.bytes L)) (fwrite s.sink (truncated MAX s.bytes L)).1],
            bytes := (s.bytes + truncated MAX s.bytes L) % U64 }) := by
  unfold boundedWrite
  simp only [ne_eq, hw, not_true_eq_false, if_false]
  split <;> rfl

/-! ## C11: a short write ends the session -/

/-- C11: when `fwrite` returns a count different from the count asked, the
write step breaks with the write error: `fwrite` has been called once for
this frame (no retry), no `read` call is made, `bytes` is left as it was, and
a capture loop whose cycle ends with this write step ends right there. And
whatever the sink does, `bytes` changes in the write step only when `fwrite`
returned exactly the count asked, and it is then increased by that count. -/
theorem short_write_ends_loop (MAX : Nat) (s : State) (fb : List Byte) (L : Nat)
    (hw : (fwrite s.sink (truncated MAX s.bytes L)).1 ≠ truncated MAX s.bytes L) :
    (boundedWrite MAX s fb L).1 = Status.exit Exit.writeError ∧
    (boundedWrite MAX s fb L).2.bytes = s.bytes ∧
    (boundedWrite MAX s fb L).2.written =
      s.written ++ [Frame.mk (truncated MAX s.bytes L) (fb.take (truncated MAX s.bytes L))
        (fwrite s.sink (truncated MAX s.bytes L)).1] ∧
    (boundedWrite MAX s fb L).2.nreads = s.nreads ∧
    (boundedWrite MAX s fb L).2.dev = s.dev ∧
    (boundedWrite MAX s fb L).2.diag = s.diag ++ [Diag.perrorWrite] ∧
    (∀ (fuel : Nat) (s0 : State), s0.not_done = true →
      cycle MAX fuel s0 = some (boundedWrite MAX s fb L) →
      captureLoop MAX (fuel + 1) s0 = some (Exit.writeError, (boundedWrite MAX s fb L).2)) ∧
    (∀ sink : List Nat,
      (boundedWrite MAX { s with sink := sink } fb L).2.bytes ≠ s.bytes →
      (fwrite sink (truncated MAX s.bytes L)).1 = truncated MAX s.bytes L ∧
      (boundedWrite MAX { s with sink := sink } fb L).2.bytes =
        (s.bytes + truncated MAX s.bytes L) % U64) := by
  have hbw := boundedWrite_short MAX s fb L hw
  refine ⟨by rw [hbw], by rw [hbw], by rw [hbw], by rw [hbw], by rw [hbw], by rw [hbw], ?_, ?_⟩
  · intro fuel s0 hnd hcy
    apply captureLoop_exit MAX fuel s0 _ _ hnd
    rw [hcy]
    conv_lhs => rw [hbw]
    rw [hbw]
  · intro sink hne
    by_cases hs : (fwrite sink (truncated MAX s.bytes L)).1 = truncated MAX s.bytes L
    · refine ⟨hs, ?_⟩
      rw [boundedWrite_full MAX { s with sink := sink } fb L hs]
    · exfalso
      apply hne
      rw [boundedWrite_short MAX { s with sink := sink } fb L hs]

/-- Witness of C11: a sink that takes 100 of the 6000 bytes asked. -/
theorem short_write_ends_loop_witness :
    (fwrite (initState [] [100] []).sink
      (truncated WRITE_MAX_BYTES (initState [] [100] []).bytes 6000)).1 ≠
      truncated WRITE_MAX_BYTES (initState [] [100] []).bytes 6000 ∧
    (boundedWrite WRITE_MAX_BYTES (initState [] [100] []) [] 6000).1 =
      Status.exit Exit.writeError ∧
    (boundedWrite WRITE_MAX_BYTES (initState [] [100] []) [] 6000).2.bytes =
      (initState [] [100] []).bytes :=
  have h := short_write_ends_loop WRITE_MAX_BYTES (initState [] [100] []) [] 6000 (by decide)
  ⟨by decide, h.1, h.2.1⟩

/-! ## The stop flag inside a cycle -/

theorem scan_append_gen :
    ∀ (A B : List Byte) (i m : Nat),
      scan (A ++ B) i m =
        if (scan A i m).2 < 4 then scan B (scan A i m).1 (scan A i m).2 else scan A i m := by
  intro A
  induction A with
  | nil =>
    intro B i m
    simp only [List.nil_append, scan]
    by_cases hm : m < 4
    · rw [if_pos hm]
    · rw [if_neg hm]
      cases B with
      | nil => rfl
      | cons b B => simp only [scan, if_neg hm]
  | cons a A ih =>
    intro B i m
    rw [List.cons_append]
    by_cases hm : m < 4
    · have h1 : scan (a :: (A ++ B)) i m = scan (A ++ B) ((i + 1) % U32) (scanStep m a) := by
        conv_lhs => unfold scan
        rw [if_pos hm]
      have h2 : scan (a :: A) i m = scan A ((i + 1) % U32) (scanStep m a) := by
        conv_lhs => unfold scan
        rw [if_pos hm]
      rw [h1, h2]
      exact ih B _ _
    · have h1 : scan (a :: (A ++ B)) i m = (i, m) := by
        conv_lhs => unfold scan
        rw [if_neg hm]
      have h2 : scan (a :: A) i m = (i, m) := by
        conv_lhs => unfold scan
        rw [if_neg hm]
      rw [h1, h2, if_neg hm]

theorem scan_shift :
    ∀ (B : List Byte) (i m : Nat), i + B.length < U32 →
      scan B i m = (i + (scan B 0 m).1, (scan B 0 m).2) := by
  intro B
  induction B with
  | nil =>
    intro i m _
    simp [scan]
  | cons b B ih =>
    intro i m hlen
    simp only [List.length_cons] at hlen
    by_cases hm : m < 4
    · have h1 : scan (b :: B) i m = scan B ((i + 1) % U32) (scanStep m b) := by
        conv_lhs => unfold scan
        rw [if_pos hm]
      have h2 : scan (b :: B) 0 m = scan B ((0 + 1) % U32) (scanStep m b) := by
        conv_lhs => unfold scan
        rw [if_pos hm]
      have e1 : (i + 1) % U32 = i + 1 := Nat.mod_eq_of_lt (by omega)
      have e2 : (0 + 1) % U32 = 1 := by decide
      rw [h1, h2, e1, e2, ih (i + 1) _ (by omega), ih 1 _ (by omega)]
      simp only [Prod.mk.injEq, and_true]
      omega
    · have h1 : scan (b :: B) i m = (i, m) := by
        conv_lhs => unfold scan
        rw [if_neg hm]
      have h2 : scan (b :: B) 0 m = (0, m) := by
        conv_lhs => unfold scan
        rw [if_neg hm]
      rw [h1, h2]
      rfl

theorem scan_append (A B : List Byte) (m : Nat) (hlen : (A ++ B).length < U32)
    (hm : m < 4) (hA : (scan A 0 m).2 ≠ 4) :
    scan (A ++ B) 0 m =
      (A.length + (scan B 0 (scan A 0 m).2).1, (scan B 0 (scan A 0 m).2).2) := by
  rw [List.length_append] at hlen
  have hle : (scan A 0 m).2 ≤ 4 := scan_marks_le A 0 m (by omega)
  have hlt : (scan A 0 m).2 < 4 := by omega
  have hs := scan_history (List.replicate m AUDIO_FRAME_MARKER) A (by omega)
  rw [trailingRun_replicate] at hs
  have hi : (scan A 0 m).1 = A.length := hs.2.2.2 hlt
  rw [scan_append_gen, if_pos hlt, hi, scan_shift B A.length _ hlen]

/-! ## C15: the scan does not depend on where the stream is cut -/

/-- C15: for byte sequences `A` and `B` (together shorter than `2^32`, the
range of the index `i`) and an entry run count `m < 4`, when the scan of `A`
from `m` does not reach four markers, the scan of `B` from the run count left
by `A` ends with the same run count as the scan of `A ++ B` from `m`; one
synchronises exactly when the other does; and the offset in `A ++ B` is the
length of `A` plus the offset in `B`. -/
theorem scan_independent_of_chunking (A B : List Byte) (m : Nat)
    (hlen : (A ++ B).length < U32) (hm : m < 4) (hA : (scan A 0 m).2 ≠ 4) :
    (scan (A ++ B) 0 m).2 = (scan B 0 (scan A 0 m).2).2 ∧
    ((scan (A ++ B) 0 m).2 = 4 ↔ (scan B 0 (scan A 0 m).2).2 = 4) ∧
    (scan (A ++ B) 0 m).1 = A.length + (scan B 0 (scan A 0 m).2).1 := by
  have h := scan_append A B m hlen hm hA
  refine ⟨?_, ?_, ?_⟩
  · rw [h]
  · rw [h]
  · rw [h]

/-- Witness of C15: a run of four markers cut after its second marker. -/
theorem scan_independent_of_chunking_witness :
    (([1, 0x7F, 0x7F] : List Byte) ++ [0x7F, 0x7F, 5]).length < U32 ∧
    (scan ([1, 0x7F, 0x7F] : List Byte) 0 0).2 ≠ 4 ∧
    (scan (([1, 0x7F, 0x7F] : List Byte) ++ [0x7F, 0x7F, 5]) 0 0).1 =
      ([1, 0x7F, 0x7F] : List Byte).length +
        (scan ([0x7F, 0x7F, 5] : List Byte) 0 (scan ([1, 0x7F, 0x7F] : List Byte) 0 0).2).1 :=
  ⟨by decide, by decide,
    (scan_independent_of_chunking [1, 0x7F, 0x7F] [0x7F, 0x7F, 5] 0 (by decide) (by decide)
      (by decide)).2.2⟩

/-! ## Markers that follow the fourth marker -/

theorem scan_long_run (pre post : List Byte) (j : Nat)
    (hlen : (pre ++ (List.replicate 4 AUDIO_FRAME_MARKER ++
      (List.replicate j AUDIO_FRAME_MARKER ++ post))).length ≤ SERIAL_BUF_BYTES)
    (hfirst : ¬ List.replicate 4 AUDIO_FRAME_MARKER <:+:
      pre ++ List.replicate 3 AUDIO_FRAME_MARKER) :
    scan (pre ++ (List.replicate 4 AUDIO_FRAME_MARKER ++
      (List.replicate j AUDIO_FRAME_MARKER ++ post))) 0 0 = (pre.length + 4, 4) := by
  have hsplit : pre ++ (List.replicate 4 AUDIO_FRAME_MARKER ++
      (List.replicate j AUDIO_FRAME_MARKER ++ post)) =
      (pre ++ List.replicate 3 AUDIO_FRAME_MARKER) ++
        (List.replicate 1 AUDIO_FRAME_MARKER ++
          (List.replicate j AUDIO_FRAME_MARKER ++ post)) := by
    have : List.replicate 4 AUDIO_FRAME_MARKER =
        List.replicate 3 AUDIO_FRAME_MARKER ++ List.replicate 1 AUDIO_FRAME_MARKER := rfl
    rw [this]
    simp only [List.append_assoc]
  have hlen3 : (pre ++ List.replicate 3 AUDIO_FRAME_MARKER).length ≤ SERIAL_BUF_BYTES := by
    simp only [List.length_append, List.length_replicate] at hlen ⊢
    omega
  have hA4 : (scan (pre ++ List.replicate 3 AUDIO_FRAME_MARKER) 0 0).2 ≠ 4 := by
    intro h4
    exact hfirst (by simpa using (scan_four_iff _ 0 hlen3 (by omega)).1 h4)
  obtain ⟨_, x2, x3⟩ := scan_exhausts _ 0 hlen3 (by omega) hA4
  simp only [List.replicate_zero, List.nil_append] at x3
  have h3 : 3 ≤ trailingRun (pre ++ List.replicate 3 AUDIO_FRAME_MARKER) :=
    (replicate_suffix_iff _ 3).1 (List.suffix_append _ _)
  have hA : (scan (pre ++ List.replicate 3 AUDIO_FRAME_MARKER) 0 0).2 = 3 := by omega
  have hB := scan_run 1 3 0 (List.replicate j AUDIO_FRAME_MARKER ++ post) rfl (by decide)
  rw [hsplit, scan_append _ _ 0
    (by rw [← hsplit]; exact lt_of_le_of_lt hlen serial_buf_lt_u32) (by omega) hA4, hA, hB]
  simp only [List.length_append, List.length_replicate]

/-! ## C14: a fifth marker is payload -/

/-- C14: when a chunk of at most 8192 bytes, scanned from run count 0, has
its first run of four markers (after the bytes `pre`) followed at once by
`j ≥ 1` further markers, the scan stops with `marks = 4` at the offset just
after the fourth marker; the byte at that offset is the fifth marker; and the
cycle enters the fill loop with `framebuf` holding the `j` further markers
and the rest of the chunk, so that `framebuf[0] = 0x7F`. When the following
reads then complete the frame, the frame passed to the write step still
starts with these markers. -/
theorem fifth_marker_is_payload (pre post : List Byte) (j : Nat) (hj : 1 ≤ j)
    (hlen : (pre ++ (List.replicate 4 AUDIO_FRAME_MARKER ++
      (List.replicate j AUDIO_FRAME_MARKER ++ post))).length ≤ SERIAL_BUF_BYTES)
    (hfirst : ¬ List.replicate 4 AUDIO_FRAME_MARKER <:+:
      pre ++ List.replicate 3 AUDIO_FRAME_MARKER) :
    scan (pre ++ (List.replicate 4 AUDIO_FRAME_MARKER ++
      (List.replicate j AUDIO_FRAME_MARKER ++ post))) 0 0 = (pre.length + 4, 4) ∧
    (pre ++ (List.replicate 4 AUDIO_FRAME_MARKER ++
      (List.replicate j AUDIO_FRAME_MARKER ++ post)))[pre.length + 4]? =
        some AUDIO_FRAME_MARKER ∧
    (List.replicate j AUDIO_FRAME_MARKER ++ post).head? = some AUDIO_FRAME_MARKER ∧
    (∀ (MAX fuel : Nat) (s : State) (rest : List ReadResult),
      s.marks = 0 →
      s.dev = ReadResult.data (pre ++ (List.replicate 4 AUDIO_FRAME_MARKER ++
        (List.replicate j AUDIO_FRAME_MARKER ++ post))) :: rest →
      (∃ s2, s2.written = s.written ∧ s2.dev = rest ∧
        cycle MAX fuel s =
          (fillLoop fuel s2 (List.replicate j AUDIO_FRAME_MARKER ++ post)
            (j + post.length)).map (fun r => boundedWrite MAX r.1 r.2.1 r.2.2)) ∧
      (∀ (runs : List (List Byte)) (rest' : List ReadResult),
        rest = runs.map ReadResult.data ++ rest' → (∀ bs ∈ runs, bs ≠ []) →
        j + post.length ≤ FRAME_LEN → FRAME_LEN ≤ j + post.length + runs.flatten.length →
        FRAME_LEN ≤ fuel →
        ∃ s3 frame, cycle MAX fuel s = some (boundedWrite MAX s3 frame FRAME_LEN) ∧
          frame = (List.replicate j AUDIO_FRAME_MARKER ++ post ++ runs.flatten).take FRAME_LEN ∧
          frame.head? = some AUDIO_FRAME_MARKER)) := by
  have hsc := scan_long_run pre post j hlen hfirst
  have hj' : List.replicate j AUDIO_FRAME_MARKER =
      AUDIO_FRAME_MARKER :: List.replicate (j - 1) AUDIO_FRAME_MARKER := by
    obtain ⟨k, rfl⟩ : ∃ k, j = k + 1 := ⟨j - 1, by omega⟩
    rfl
  have hdrop : (pre ++ (List.replicate 4 AUDIO_FRAME_MARKER ++
      (List.replicate j AUDIO_FRAME_MARKER ++ post))).drop (pre.length + 4) =
      List.replicate j AUDIO_FRAME_MARKER ++ post := by
    rw [← List.append_assoc]
    exact List.drop_left' (by simp)
  have hhead : (List.replicate j AUDIO_FRAME_MARKER ++ post).head? =
      some AUDIO_FRAME_MARKER := by
    rw [hj']
    rfl
  have hclen : (pre ++ (List.replicate 4 AUDIO_FRAME_MARKER ++
      (List.replicate j AUDIO_FRAME_MARKER ++ post))).length - (pre.length + 4) =
      j + post.length := by
    simp only [List.length_append, List.length_replicate]
    omega
  have hpos : 0 < (pre ++ (List.replicate 4 AUDIO_FRAME_MARKER ++
      (List.replicate j AUDIO_FRAME_MARKER ++ post))).length := by
    simp only [List.length_append, List.length_replicate]
    omega
  refine ⟨hsc, ?_, hhead, ?_⟩
  · rw [← List.append_assoc, List.getElem?_append_right (by simp)]
    simp only [List.length_append, List.length_replicate, Nat.sub_self]
    rw [hj', List.cons_append, List.getElem?_cons_zero]
  · intro MAX fuel s rest hm hdev
    have hcy := cycle_sync MAX fuel s _ rest (pre.length + 4) hdev hpos hlen
      (by rw [hm]; exact hsc)
    rw [hdrop, hclen] at hcy
    refine ⟨⟨_, ?_, rfl, hcy⟩, ?_⟩
    · exact (signals_fields s).2.2.2.2.2.2.1
    · intro runs rest' hrest hne hle hge hfuel
      have hl : (List.replicate j AUDIO_FRAME_MARKER ++ post).length = j + post.length := by
        simp only [List.length_append, List.length_replicate]
      have hfill := fillLoop_data runs fuel
        { signals s with
            dev := rest, nreads := s.nreads + 1, marks := 0, dropped := 0,
            diag := if pre.length + 4 > 4 then s.diag ++ [Diag.dropped (pre.length + 4 - 4)]
              else s.diag }
        (List.replicate j AUDIO_FRAME_MARKER ++ post) rest' hrest hne
        (by rw [hl]; exact hle) (by rw [hl]; exact hge) (by omega)
      obtain ⟨s3, hs3⟩ := hfill
      rw [hl] at hs3
      refine ⟨s3, _, ?_, rfl, ?_⟩
      · rw [hcy, hs3]
        rfl
      · rw [hj']
        have : 0 < FRAME_LEN := by decide
        obtain ⟨k, hk⟩ : ∃ k, FRAME_LEN = k + 1 := ⟨FRAME_LEN - 1, by omega⟩
        rw [hk]
        rfl

/-- Witness of C14: one garbage byte, five markers, one payload byte. -/
theorem fifth_marker_is_payload_witness :
    (1 : Nat) ≤ 1 ∧
    ¬ List.replicate 4 AUDIO_FRAME_MARKER <:+:
      ([1] : List Byte) ++ List.replicate 3 AUDIO_FRAME_MARKER ∧
    scan (([1] : List Byte) ++ (List.replicate 4 AUDIO_FRAME_MARKER ++
      (List.replicate 1 AUDIO_FRAME_MARKER ++ [2]))) 0 0 = (([1] : List Byte).length + 4, 4) :=
  ⟨by decide, by decide,
    (fifth_marker_is_payload [1] [2] 1 (by decide) (by decide) (by decide)).1⟩

/-! ## The scan run again from run count 0 -/

theorem cycle_sync_reported (MAX fuel : Nat) (s : State) (chunk : List Byte)
    (rest : List ReadResult) (i : Nat) (st : Status) (s' : State)
    (hdev : s.dev = ReadResult.data chunk :: rest) (h0 : 0 < chunk.length)
    (h1 : chunk.length ≤ SERIAL_BUF_BYTES) (hsc : scan chunk 0 s.marks = (i, 4))
    (hcy : cycle MAX fuel s = some (st, s')) :
    reportedDiscarded (s'.diag.drop s.diag.length) = i - 4 := by
  obtain ⟨tail, htail, hdiag⟩ := cycle_sync_diag MAX fuel s chunk rest i st s' hdev h0 h1 hsc hcy
  rw [hdiag, List.drop_left]
  by_cases h4 : i > 4
  · rw [if_pos h4]
    rfl
  · rw [if_neg h4, List.nil_append]
    have : i - 4 = 0 := by omega
    rw [this]
    rcases htail with ht | ht <;> rw [ht] <;> rfl

/-! ## C13: the scan gives the same result when run again -/

/-- C13: two runs of the marker scan over the same chunk, each started with
the run count at 0, in states that may differ in everything else (running
total, `dropped`, history, the reads that follow, the sink, the signals), give
the same offset `i` and the same final run count. When the run count is not
4, both cycles go back to the loop test with that run count and nothing
written or printed; when it is 4, both cycles enter the fill loop with
`framebuf` holding the chunk from the same offset `i` on, and cycles that end
report the same discarded count, `i - 4` (0 when nothing is printed). -/
theorem scan_twice_same_result (MAX fuel1 fuel2 : Nat) (s1 s2 : State)
    (chunk : List Byte) (rest1 rest2 : List ReadResult)
    (h0 : 0 < chunk.length) (h1 : chunk.length ≤ SERIAL_BUF_BYTES)
    (hd1 : s1.dev = ReadResult.data chunk :: rest1)
    (hd2 : s2.dev = ReadResult.data chunk :: rest2)
    (hm1 : s1.marks = 0) (hm2 : s2.marks = 0) :
    scan chunk 0 s1.marks = scan chunk 0 s2.marks ∧
    ((scan chunk 0 0).2 ≠ 4 →
      ∃ t1 t2, cycle MAX fuel1 s1 = some (Status.next, t1) ∧
        cycle MAX fuel2 s2 = some (Status.next, t2) ∧
        t1.marks = (scan chunk 0 0).2 ∧ t2.marks = (scan chunk 0 0).2 ∧
        t1.written = s1.written ∧ t2.written = s2.written ∧
        t1.diag = s1.diag ∧ t2.diag = s2.diag) ∧
    ((scan chunk 0 0).2 = 4 →
      (∃ u1 u2,
        cycle MAX fuel1 s1 =
          (fillLoop fuel1 u1 (chunk.drop (scan chunk 0 0).1)
            (chunk.length - (scan chunk 0 0).1)).map
            (fun r => boundedWrite MAX r.1 r.2.1 r.2.2) ∧
        cycle MAX fuel2 s2 =
          (fillLoop fuel2 u2 (chunk.drop (scan chunk 0 0).1)
            (chunk.length - (scan chunk 0 0).1)).map
            (fun r => boundedWrite MAX r.1 r.2.1 r.2.2)) ∧
      (∀ (st1 : Status) (t1 : State) (st2 : Status) (t2 : State),
        cycle MAX fuel1 s1 = some (st1, t1) → cycle MAX fuel2 s2 = some (st2, t2) →
        reportedDiscarded (t1.diag.drop s1.diag.length) = (scan chunk 0 0).1 - 4 ∧
        reportedDiscarded (t2.diag.drop s2.diag.length) = (scan chunk 0 0).1 - 4)) := by
  refine ⟨by rw [hm1, hm2], ?_, ?_⟩
  · intro hne
    have c1 := cycle_nosync MAX fuel1 s1 chunk rest1 hd1 h0 h1 (by rw [hm1]; exact hne)
    have c2 := cycle_nosync MAX fuel2 s2 chunk rest2 hd2 h0 h1 (by rw [hm2]; exact hne)
    rw [hm1] at c1
    rw [hm2] at c2
    refine ⟨_, _, c1, c2, rfl, rfl, ?_, ?_, ?_, ?_⟩
    · exact (signals_fields s1).2.2.2.2.2.2.1
    · exact (signals_fields s2).2.2.2.2.2.2.1
    · exact (signals_fields s1).2.2.2.2.2.2.2
    · exact (signals_fields s2).2.2.2.2.2.2.2
  · intro h4
    have hsc : scan chunk 0 0 = ((scan chunk 0 0).1, 4) := Prod.ext rfl h4
    have hsc1 : scan chunk 0 s1.marks = ((scan chunk 0 0).1, 4) := by rw [hm1]; exact hsc
    have hsc2 : scan chunk 0 s2.marks = ((scan chunk 0 0).1, 4) := by rw [hm2]; exact hsc
    refine ⟨⟨_, _, cycle_sync MAX fuel1 s1 chunk rest1 _ hd1 h0 h1 hsc1,
      cycle_sync MAX fuel2 s2 chunk rest2 _ hd2 h0 h1 hsc2⟩, ?_⟩
    intro st1 t1 st2 t2 hc1 hc2
    exact ⟨cycle_sync_reported MAX fuel1 s1 chunk rest1 _ st1 t1 hd1 h0 h1 hsc1 hc1,
      cycle_sync_reported MAX fuel2 s2 chunk rest2 _ st2 t2 hd2 h0 h1 hsc2 hc2⟩

/-- Witness of C13: the same chunk scanned at the start of a session and in
a session that has already written a frame. -/
theorem scan_twice_same_result_witness :
    (initState [ReadResult.data [0, 0x7F, 0x7F, 0x7F, 0x7F, 8]] [] []).marks = 0 ∧
    ({ initState [ReadResult.data [0, 0x7F, 0x7F, 0x7F, 0x7F, 8], ReadResult.error] [7] [true]
        with bytes := 6000, nreads := 3 } : State).marks = 0 ∧
    scan [0, 0x7F, 0x7F, 0x7F, 0x7F, 8] 0
        (initState [ReadResult.data [0, 0x7F, 0x7F, 0x7F, 0x7F, 8]] [] []).marks =
      scan [0, 0x7F, 0x7F, 0x7F, 0x7F, 8] 0
        ({ initState [ReadResult.data [0, 0x7F, 0x7F, 0x7F, 0x7F, 8], ReadResult.error] [7]
            [true] with bytes := 6000, nreads := 3 } : State).marks :=
  ⟨rfl, rfl,
    (scan_twice_same_result WRITE_MAX_BYTES 0 0
      (initState [ReadResult.data [0, 0x7F, 0x7F, 0x7F, 0x7F, 8]] [] [])
      { initState [ReadResult.data [0, 0x7F, 0x7F, 0x7F, 0x7F, 8], ReadResult.error] [7] [true]
          with bytes := 6000, nreads := 3 }
      [0, 0x7F, 0x7F, 0x7F, 0x7F, 8] [] [ReadResult.error]
      (by decide) (by decide) rfl rfl rfl rfl).1⟩

/-! ## C16: the offset stays inside the bytes read -/

/-- C16: at every loop test of a run from the initial state `marks < 4`; and
when the cycle that follows reads a chunk of `r_got > 0` bytes and
synchronises at offset `i`, then `1 ≤ i ≤ r_got` (so `&buf[i]` is at most one
past the bytes read), `r_got - i` is not negative and `frame_bytes` receives
exactly that value (no reduction modulo `2^32`); and a `Dropped` line is
printed in that cycle only when `i > 4`, with the number `i - 4` of the
integers (no wrap-around of the unsigned subtraction). -/
theorem sync_offset_in_bounds (MAX : Nat) (dev : List ReadResult) (sink : List Nat)
    (sigint : List Bool) (s : State) (hs : LoopTop MAX (initState dev sink sigint) s) :
    s.marks < 4 ∧
    ∀ (chunk : List Byte) (rest : List ReadResult) (i : Nat),
      s.dev = ReadResult.data chunk :: rest → 0 < chunk.length →
      chunk.length ≤ SERIAL_BUF_BYTES → scan chunk 0 s.marks = (i, 4) →
      1 ≤ i ∧ i ≤ chunk.length ∧
      (0 : Int) ≤ (chunk.length : Int) - (i : Int) ∧
      ((((chunk.length : Int) - (i : Int)) % (U32 : Int)).toNat : Int) =
        (chunk.length : Int) - (i : Int) ∧
      (∀ (fuel : Nat) (st : Status) (s' : State), cycle MAX fuel s = some (st, s') →
        ∀ n, Diag.dropped n ∈ s'.diag.drop s.diag.length →
          4 < i ∧ (n : Int) = (i : Int) - 4) := by
  have hm0 : (initState dev sink sigint).marks < 4 := by
    show 0 < 4
    decide
  have hm : s.marks < 4 := loopTop_marks MAX _ s hm0 hs
  refine ⟨hm, ?_⟩
  intro chunk rest i hdev h0 h1 hsc
  have hlen : chunk.length < U32 := lt_of_le_of_lt h1 serial_buf_lt_u32
  have hi : i ≤ chunk.length := by
    have := scan_index_le chunk s.marks hlen
    rwa [hsc] at this
  have hi1 : 1 ≤ i := by
    by_contra hlt
    have hz : i = 0 := by omega
    have hh := (scan_history (List.replicate s.marks AUDIO_FRAME_MARKER) chunk hlen).2.1
    rw [trailingRun_replicate, hsc] at hh
    simp only [hz, List.take_zero, List.append_nil] at hh
    rw [trailingRun_replicate] at hh
    omega
  refine ⟨hi1, hi, by omega, ?_, ?_⟩
  · unfold U32 at hlen ⊢
    omega
  · intro fuel st s' hcy n hn
    obtain ⟨tail, htail, hdiag⟩ :=
      cycle_sync_diag MAX fuel s chunk rest i st s' hdev h0 h1 hsc hcy
    rw [hdiag, List.drop_left] at hn
    by_cases h4 : i > 4
    · rw [if_pos h4] at hn
      rcases htail with ht | ht
      · rw [ht] at hn
        simp only [List.append_nil, List.mem_singleton, Diag.dropped.injEq] at hn
        exact ⟨h4, by omega⟩
      · rw [ht] at hn
        simp only [List.singleton_append, List.mem_cons, Diag.dropped.injEq, List.mem_singleton,
          reduceCtorEq, or_false, List.not_mem_nil] at hn
        exact ⟨h4, by omega⟩
    · rw [if_neg h4, List.nil_append] at hn
      rcases htail with ht | ht
      · rw [ht] at hn
        exact absurd hn (List.not_mem_nil _)
      · rw [ht] at hn
        simp only [List.mem_singleton, reduceCtorEq] at hn

/-- Witness of C16: two markers at the end of one chunk, two at the start
of the next. -/
theorem sync_offset_in_bounds_witness :
    LoopTop WRITE_MAX_BYTES
      (initState [ReadResult.data [0x7F, 0x7F], ReadResult.data [0x7F, 0x7F, 1]] [] [])
      { initState [ReadResult.data [0x7F, 0x7F, 1]] [] [] with
          nreads := 1, dropped := 2, marks := 2 } ∧
    scan [0x7F, 0x7F, 1] 0
      ({ initState [ReadResult.data [0x7F, 0x7F, 1]] [] [] with
          nreads := 1, dropped := 2, marks := 2 } : State).marks = (2, 4) ∧
    1 ≤ 2 ∧ 2 ≤ ([0x7F, 0x7F, 1] : List Byte).length :=
  have hs : LoopTop WRITE_MAX_BYTES
      (initState [ReadResult.data [0x7F, 0x7F], ReadResult.data [0x7F, 0x7F, 1]] [] [])
      { initState [ReadResult.data [0x7F, 0x7F, 1]] [] [] with
          nreads := 1, dropped := 2, marks := 2 } :=
    LoopTop.next 0 _ _ LoopTop.start rfl (by decide)
  have h := (sync_offset_in_bounds WRITE_MAX_BYTES
    [ReadResult.data [0x7F, 0x7F], ReadResult.data [0x7F, 0x7F, 1]] [] [] _ hs).2
    [0x7F, 0x7F, 1] [] 2 rfl (by decide) (by decide) (by decide)
  ⟨hs, by decide, h.1, h.2.1⟩

/-! ## The fill loop pass by pass -/

theorem fillLoop_succ (k : Nat) (s : State) (fb : List Byte) (n : Nat)
    (h : n < FRAME_LEN) :
    fillLoop (k + 1) s fb n =
      fillLoop k (fillStep s fb n).1 (fillStep s fb n).2.1 (fillStep s fb n).2.2 := by
  conv_lhs => unfold fillLoop
  rw [if_pos h]
  rfl

theorem fillReach_of_step (x y : State × List Byte × Nat) (hlt : x.2.2 < FRAME_LEN)
    (h : FillReach (fillStep x.1 x.2.1 x.2.2) y) : FillReach x y := by
  induction h with
  | start => exact FillReach.step x FillReach.start hlt
  | step z _ hz ih => exact FillReach.step z ih hz

theorem fillStep_positive (s : State) (fb : List Byte) (n : Nat) (hn : n < FRAME_LEN)
    (hpos : 1 ≤ (read s.dev (FRAME_LEN - n)).1) :
    (fillStep s fb n).2.2 = n + (read s.dev (FRAME_LEN - n)).2.1.length ∧
    1 ≤ (read s.dev (FRAME_LEN - n)).2.1.length ∧
    n + (read s.dev (FRAME_LEN - n)).2.1.length ≤ FRAME_LEN ∧
    (fillStep s fb n).1.nreads = s.nreads + 1 := by
  rcases read_cases s.dev (FRAME_LEN - n) with ⟨h1, _⟩ | ⟨h1, h2⟩
  · omega
  · have hlen : 1 ≤ (read s.dev (FRAME_LEN - n)).2.1.length := by omega
    refine ⟨?_, hlen, by omega, rfl⟩
    show ((((n : Int) + (read s.dev (FRAME_LEN - n)).1) % (U32 : Int)).toNat) = _
    rw [h1]
    have hF := frame_len_eq
    unfold U32
    omega

theorem fillLoop_positive :
    ∀ (k : Nat) (s : State) (fb : List Byte) (n : Nat),
      n ≤ FRAME_LEN → FRAME_LEN - n ≤ k →
      (∀ x, FillReach (s, fb, n) x → x.2.2 < FRAME_LEN →
        1 ≤ (read x.1.dev (FRAME_LEN - x.2.2)).1) →
      ∃ s' fb', fillLoop k s fb n = some (s', fb', FRAME_LEN) ∧
        s'.nreads ≤ s.nreads + (FRAME_LEN - n) := by
  intro k
  induction k with
  | zero =>
    intro s fb n hn hk _
    have heq : n = FRAME_LEN := by omega
    exact ⟨s, fb, by rw [fillLoop_done 0 s fb n (by omega), heq], by omega⟩
  | succ k ih =>
    intro s fb n hn hk hpos
    by_cases hlt : n < FRAME_LEN
    · obtain ⟨e1, e2, e3, e4⟩ := fillStep_positive s fb n hlt (hpos (s, fb, n) FillReach.start hlt)
      have := ih (fillStep s fb n).1 (fillStep s fb n).2.1 (fillStep s fb n).2.2
        (by rw [e1]; exact e3) (by rw [e1]; omega)
        (fun x hx hx2 => hpos x (fillReach_of_step (s, fb, n) x hlt hx) hx2)
      obtain ⟨s', fb', hf, hr⟩ := this
      refine ⟨s', fb', ?_, ?_⟩
      · rw [fillLoop_succ k s fb n hlt, hf]
      · rw [e4, e1] at hr
        omega
    · have heq : n = FRAME_LEN := by omega
      exact ⟨s, fb, by rw [fillLoop_done _ s fb n hlt, heq], by omega⟩

theorem fillReach_bounded (x0 x : State × List Byte × Nat) (h0 : x0.2.2 ≤ FRAME_LEN)
    (hpos : ∀ y, FillReach x0 y → y.2.2 < FRAME_LEN →
      1 ≤ (read y.1.dev (FRAME_LEN - y.2.2)).1)
    (hx : FillReach x0 x) : x.2.2 ≤ FRAME_LEN := by
  induction hx with
  | start => exact h0
  | step z hz hlt _ =>
    obtain ⟨e1, _, e3, _⟩ := fillStep_positive z.1 z.2.1 z.2.2 hlt (hpos z hz hlt)
    rw [e1]
    exact e3

theorem fillStep_script (s : State) (fb : List Byte) (n : Nat) (bs : List Byte)
    (pre : List (List Byte)) (rest : List ReadResult)
    (hdev : s.dev = (bs :: pre).map ReadResult.data ++ rest) (hbs : bs ≠ [])
    (hpre : ∀ b ∈ pre, b ≠ []) (hn : n < FRAME_LEN)
    (hge : FRAME_LEN ≤ n + (bs :: pre).flatten.length) :
    1 ≤ (read s.dev (FRAME_LEN - n)).1 ∧
    ∃ pre' : List (List Byte), (fillStep s fb n).1.dev = pre'.map ReadResult.data ++ rest ∧
      (∀ b ∈ pre', b ≠ []) ∧ (fillStep s fb n).2.2 ≤ FRAME_LEN ∧
      FRAME_LEN ≤ (fillStep s fb n).2.2 + pre'.flatten.length := by
  have hF := frame_len_eq
  have hbl : 0 < bs.length := List.length_pos.2 hbs
  simp only [List.map_cons, List.cons_append] at hdev
  simp only [List.flatten_cons, List.length_append] at hge
  by_cases hfit : bs.length ≤ FRAME_LEN - n
  · have hr : read s.dev (FRAME_LEN - n) =
        ((bs.length : Int), bs, pre.map ReadResult.data ++ rest) := by
      rw [hdev, read_data _ _ _ hfit]
    have hn' : (fillStep s fb n).2.2 = n + bs.length := by
      show ((((n : Int) + (read s.dev (FRAME_LEN - n)).1) % (U32 : Int)).toNat) = _
      rw [hr]
      unfold U32
      omega
    refine ⟨by rw [hr]; omega, pre, ?_, hpre, by rw [hn']; omega, by rw [hn']; omega⟩
    show (read s.dev (FRAME_LEN - n)).2.2 = _
    rw [hr]
  · have hr : read s.dev (FRAME_LEN - n) =
        (((FRAME_LEN - n : Nat) : Int), bs.take (FRAME_LEN - n),
          ReadResult.data (bs.drop (FRAME_LEN - n)) :: (pre.map ReadResult.data ++ rest)) := by
      rw [hdev]
      simp [read, hfit]
    have hn' : (fillStep s fb n).2.2 = FRAME_LEN := by
      show ((((n : Int) + (read s.dev (FRAME_LEN - n)).1) % (U32 : Int)).toNat) = _
      rw [hr]
      unfold U32
      omega
    refine ⟨by rw [hr]; omega, bs.drop (FRAME_LEN - n) :: pre, ?_, ?_, by rw [hn'],
      by rw [hn']; omega⟩
    · show (read s.dev (FRAME_LEN - n)).2.2 = _
      rw [hr]
      rfl
    · intro b hb
      rcases List.mem_cons.1 hb with hb | hb
      · rw [hb]
        intro hnil
        have := congrArg List.length hnil
        rw [List.length_drop, List.length_nil] at this
        omega
      · exact hpre b hb

theorem fillReach_script (s : State) (fb : List Byte) (n : Nat)
    (pre : List (List Byte)) (rest : List ReadResult)
    (hdev : s.dev = pre.map ReadResult.data ++ rest) (hpre : ∀ b ∈ pre, b ≠ [])
    (hn : n ≤ FRAME_LEN) (hge : FRAME_LEN ≤ n + pre.flatten.length)
    (x : State × List Byte × Nat) (hx : FillReach (s, fb, n) x) :
    ∃ pre' : List (List Byte), x.1.dev = pre'.map ReadResult.data ++ rest ∧
      (∀ b ∈ pre', b ≠ []) ∧
      x.2.2 ≤ FRAME_LEN ∧ FRAME_LEN ≤ x.2.2 + pre'.flatten.length := by
  induction hx with
  | start => exact ⟨pre, hdev, hpre, hn, hge⟩
  | step z _ hlt ih =>
    obtain ⟨pre', h1, h2, h3, h4⟩ := ih
    cases pre' with
    | nil =>
      simp only [List.flatten_nil, List.length_nil] at h4
      omega
    | cons bs tl =>
      exact (fillStep_script z.1 z.2.1 z.2.2 bs tl rest h1 (h2 bs (List.mem_cons_self _ _))
        (fun b hb => h2 b (List.mem_cons_of_mem _ hb)) hlt h4).2

theorem fillReach_script_positive (s : State) (fb : List Byte) (n : Nat)
    (pre : List (List Byte)) (rest : List ReadResult)
    (hdev : s.dev = pre.map ReadResult.data ++ rest) (hpre : ∀ b ∈ pre, b ≠ [])
    (hn : n ≤ FRAME_LEN) (hge : FRAME_LEN ≤ n + pre.flatten.length)
    (x : State × List Byte × Nat) (hx : FillReach (s, fb, n) x) (hlt : x.2.2 < FRAME_LEN) :
    1 ≤ (read x.1.dev (FRAME_LEN - x.2.2)).1 := by
  obtain ⟨pre', h1, h2, h3, h4⟩ := fillReach_script s fb n pre rest hdev hpre hn hge x hx
  cases pre' with
  | nil =>
    simp only [List.flatten_nil, List.length_nil] at h4
    omega
  | cons bs tl =>
    exact (fillStep_script x.1 x.2.1 x.2.2 bs tl rest h1 (h2 bs (List.mem_cons_self _ _))
      (fun b hb => h2 b (List.mem_cons_of_mem _ hb)) hlt h4).1

/-! ## C17: the fill loop ends within `6000 - t` reads -/

/-- C17: when the fill loop is entered with `frame_bytes = t ≤ 6000` and
every read made at one of its loop tests returns at least one byte (a read
never returns more than the `rem = 6000 - frame_bytes` bytes asked), the loop
ends within `6000 - t` passes, hence after at most `6000 - t` reads, with
`frame_bytes = 6000` exactly; at every loop test on the way `frame_bytes` is
at most 6000, and every read stores its bytes at `framebuf[frame_bytes..]`
without passing the end of the 6000 bytes of `framebuf`. -/
theorem fill_loop_terminates (s : State) (fb : List Byte) (t : Nat) (ht : t ≤ FRAME_LEN)
    (hpos : ∀ x, FillReach (s, fb, t) x → x.2.2 < FRAME_LEN →
      1 ≤ (read x.1.dev (FRAME_LEN - x.2.2)).1) :
    (∃ s' fb', fillLoop (FRAME_LEN - t) s fb t = some (s', fb', FRAME_LEN) ∧
      s'.nreads ≤ s.nreads + (FRAME_LEN - t)) ∧
    (∀ x, FillReach (s, fb, t) x →
      x.2.2 ≤ FRAME_LEN ∧
      (x.2.2 < FRAME_LEN →
        (read x.1.dev (FRAME_LEN - x.2.2)).1 ≤ ((FRAME_LEN - x.2.2 : Nat) : Int) ∧
        x.2.2 + (read x.1.dev (FRAME_LEN - x.2.2)).2.1.length ≤ FRAME_LEN ∧
        (fillStep x.1 x.2.1 x.2.2).2.2 =
          x.2.2 + (read x.1.dev (FRAME_LEN - x.2.2)).2.1.length)) := by
  refine ⟨fillLoop_positive (FRAME_LEN - t) s fb t ht (le_refl _) hpos, ?_⟩
  intro x hx
  refine ⟨fillReach_bounded (s, fb, t) x ht hpos hx, ?_⟩
  intro hlt
  obtain ⟨e1, _, e3, _⟩ := fillStep_positive x.1 x.2.1 x.2.2 hlt (hpos x hx hlt)
  refine ⟨?_, e3, e1⟩
  rcases read_cases x.1.dev (FRAME_LEN - x.2.2) with ⟨h1, _⟩ | ⟨h1, h2⟩
  · omega
  · omega

/-- Witness of C17: a frame that has 5998 bytes from the chunk and is
completed by two reads of one byte. -/
theorem fill_loop_terminates_witness :
    (5998 : Nat) ≤ FRAME_LEN ∧
    ∃ s' fb', fillLoop (FRAME_LEN - 5998)
        (initState [ReadResult.data [1], ReadResult.data [2]] [] [])
        (List.replicate 5998 0) 5998 = some (s', fb', FRAME_LEN) ∧
      s'.nreads ≤ (initState [ReadResult.data [1], ReadResult.data [2]] [] []).nreads +
        (FRAME_LEN - 5998) :=
  have hpre : ∀ b ∈ ([[1], [2]] : List (List Byte)), b ≠ [] := by decide
  ⟨by decide,
    (fill_loop_terminates (initState [ReadResult.data [1], ReadResult.data [2]] [] [])
      (List.replicate 5998 0) 5998 (by decide)
      (fillReach_script_positive _ _ 5998 [[1], [2]] [] rfl hpre (by decide) (by decide))).1⟩

/-! ## A session of full frames -/

theorem sum_len_const (c : Nat) :
    ∀ l : List Frame, (∀ f ∈ l, f.len = c) → (l.map Frame.len).sum = l.length * c := by
  intro l
  induction l with
  | nil => intro _; simp
  | cons f l ih =>
    intro h
    rw [List.map_cons, List.sum_cons, List.length_cons, h f (List.mem_cons_self _ _),
      ih (fun g hg => h g (List.mem_cons_of_mem _ hg))]
    rw [Nat.add_mul, Nat.one_mul, Nat.add_comm]

theorem loopTop_full_frames (p : List Byte) (hp : p.length = 6000) :
    ∀ (k : Nat) (rest : List ReadResult), k * 6000 < WRITE_MAX_BYTES →
      LoopTop WRITE_MAX_BYTES
        (initState (List.replicate k
          (ReadResult.data (List.replicate 4 AUDIO_FRAME_MARKER ++ p)) ++ rest) [] [])
        { initState rest [] [] with
            nreads := k, bytes := k * 6000,
            written := List.replicate k (Frame.mk 6000 p 6000) } := by
  intro k
  induction k with
  | zero =>
    intro rest _
    exact LoopTop.start
  | succ k ih =>
    intro rest hk
    have hW := write_max_bytes_eq
    have hcat : List.replicate (k + 1)
        (ReadResult.data (List.replicate 4 AUDIO_FRAME_MARKER ++ p)) ++ rest =
        List.replicate k (ReadResult.data (List.replicate 4 AUDIO_FRAME_MARKER ++ p)) ++
          (ReadResult.data (List.replicate 4 AUDIO_FRAME_MARKER ++ p) :: rest) := by
      rw [List.replicate_succ', List.append_assoc]
      rfl
    rw [hcat]
    have hprev := ih (ReadResult.data (List.replicate 4 AUDIO_FRAME_MARKER ++ p) :: rest)
      (by omega)
    refine LoopTop.next 0 _ _ hprev rfl ?_
    have hmin : min p.length (WRITE_MAX_BYTES - k * 6000) = 6000 := by
      rw [hp]
      omega
    have hcap : ¬ WRITE_MAX_BYTES ≤ (k + 1) * 6000 := by omega
    have htake : p.take 6000 = p := List.take_of_length_le (by rw [hp])
    have hbytes : k * 6000 + 6000 = (k + 1) * 6000 := by omega
    rw [cycle_marked_chunk WRITE_MAX_BYTES 0 _ p rest rfl rfl (by rw [hp]; decide)
      (by rw [hp]; decide) (by decide) (by show k * 6000 < WRITE_MAX_BYTES; omega) rfl]
    simp only [initState, hmin, hcap, if_false, htake, hbytes, ← List.replicate_succ']
    rfl

/-! ## C18: the numbers of a full session -/

/-- C18: with the built-in constants, at a loop test of a run from the
initial state at which every frame written so far had 6000 bytes, the running
total is 6000 times the number `k` of frames written and `k ≤ 44739`. A
frame assembled to exactly 6000 bytes and written with success is then, when
`k < 44739`, written whole, the total becomes `(k + 1) * 6000` and the loop
goes on; and when `k = 44739` (the 44740th frame) it is cut to exactly 1456
bytes, the total becomes exactly 268435456 and the loop ends there. 1456 is
485 samples of `SAMP_SIZE` bytes plus 1 byte and the cap leaves remainder 1
modulo `SAMP_SIZE`, so the final total is not a whole number of samples. -/
theorem cap_reached_in_frame_44740 (dev : List ReadResult) (sink : List Nat)
    (sigint : List Bool) (s : State)
    (hs : LoopTop WRITE_MAX_BYTES (initState dev sink sigint) s)
    (hall : ∀ f ∈ s.written, f.len = FRAME_LEN) :
    s.bytes = s.written.length * 6000 ∧ s.written.length ≤ 44739 ∧
    (∀ (s1 : State) (fb : List Byte), s1.bytes = s.bytes → s1.written = s.written →
      (fwrite s1.sink (truncated WRITE_MAX_BYTES s1.bytes FRAME_LEN)).1 =
        truncated WRITE_MAX_BYTES s1.bytes FRAME_LEN →
      (s.written.length < 44739 →
        (boundedWrite WRITE_MAX_BYTES s1 fb FRAME_LEN).1 = Status.next ∧
        (boundedWrite WRITE_MAX_BYTES s1 fb FRAME_LEN).2.bytes =
          (s.written.length + 1) * 6000 ∧
        (boundedWrite WRITE_MAX_BYTES s1 fb FRAME_LEN).2.written =
          s.written ++ [Frame.mk 6000 (fb.take 6000) 6000]) ∧
      (s.written.length = 44739 →
        (boundedWrite WRITE_MAX_BYTES s1 fb FRAME_LEN).1 = Status.exit Exit.capReached ∧
        (boundedWrite WRITE_MAX_BYTES s1 fb FRAME_LEN).2.bytes = 268435456 ∧
        (boundedWrite WRITE_MAX_BYTES s1 fb FRAME_LEN).2.written =
          s.written ++ [Frame.mk 1456 (fb.take 1456) 1456] ∧
        (∀ fuel : Nat, s.not_done = true →
          cycle WRITE_MAX_BYTES fuel s = some (boundedWrite WRITE_MAX_BYTES s1 fb FRAME_LEN) →
          captureLoop WRITE_MAX_BYTES (fuel + 1) s =
            some (Exit.capReached, (boundedWrite WRITE_MAX_BYTES s1 fb FRAME_LEN).2)))) ∧
    1456 = 485 * SAMP_SIZE + 1 ∧ WRITE_MAX_BYTES % SAMP_SIZE = 1 ∧
    WRITE_MAX_BYTES = 44739 * FRAME_LEN + 1456 := by
  have hM : WRITE_MAX_BYTES < 9223372036854775808 := by decide
  have hW := write_max_bytes_eq
  have hF := frame_len_eq
  have hb0 : (initState dev sink sigint).bytes < WRITE_MAX_BYTES := by
    show 0 < WRITE_MAX_BYTES
    decide
  obtain ⟨hlt, hsum⟩ := loopTop_total WRITE_MAX_BYTES _ s hM hb0 rfl hs
  rw [sum_len_const FRAME_LEN s.written hall, hF] at hsum
  have hk : s.written.length ≤ 44739 := by omega
  refine ⟨hsum.symm, hk, ?_, by decide, by decide, by decide⟩
  intro s1 fb hb1 hw1 hwr
  have htr : truncated WRITE_MAX_BYTES s1.bytes FRAME_LEN =
      min FRAME_LEN (WRITE_MAX_BYTES - s1.bytes) :=
    truncated_eq _ _ _ hM (by rw [hb1]; exact hlt) (by decide)
  rw [htr] at hwr
  have hbw := boundedWrite_eq WRITE_MAX_BYTES s1 fb FRAME_LEN hM (by rw [hb1]; exact hlt)
    (by decide)
  rw [if_neg (by rw [hwr]; exact fun h => h rfl), hwr, hb1, hw1] at hbw
  constructor
  · intro hlt'
    have hmin : min FRAME_LEN (WRITE_MAX_BYTES - s.bytes) = 6000 := by omega
    have hcap : ¬ WRITE_MAX_BYTES ≤ s.bytes + 6000 := by omega
    rw [hmin, if_neg hcap] at hbw
    rw [hbw]
    refine ⟨rfl, ?_, rfl⟩
    show s.bytes + 6000 = _
    omega
  · intro heq
    have hmin : min FRAME_LEN (WRITE_MAX_BYTES - s.bytes) = 1456 := by omega
    have hcap : WRITE_MAX_BYTES ≤ s.bytes + 1456 := by omega
    rw [hmin, if_pos hcap] at hbw
    refine ⟨by rw [hbw], ?_, by rw [hbw], ?_⟩
    · rw [hbw]
      show s.bytes + 1456 = _
      omega
    · intro fuel hnd hcy
      apply captureLoop_exit WRITE_MAX_BYTES fuel s _ _ hnd
      rw [hcy]
      conv_lhs => rw [hbw]
      rw [hbw]

/-- Witness of C18: the loop test reached after 44739 chunks that each hold
the four markers and a payload of 6000 bytes. -/
theorem cap_reached_in_frame_44740_witness :
    LoopTop WRITE_MAX_BYTES
      (initState (List.replicate 44739
        (ReadResult.data (List.replicate 4 AUDIO_FRAME_MARKER ++ List.replicate 6000 0)) ++
        [ReadResult.data (List.replicate 4 AUDIO_FRAME_MARKER ++ List.replicate 6000 0)]) [] [])
      { initState
          [ReadResult.data (List.replicate 4 AUDIO_FRAME_MARKER ++ List.replicate 6000 0)] [] []
          with
          nreads := 44739, bytes := 44739 * 6000,
          written := List.replicate 44739 (Frame.mk 6000 (List.replicate 6000 0) 6000) } ∧
    (∀ f ∈ List.replicate 44739 (Frame.mk 6000 (List.replicate 6000 0) 6000),
      f.len = FRAME_LEN) ∧
    (List.replicate 44739 (Frame.mk 6000 (List.replicate 6000 0) 6000)).length ≤ 44739 :=
  have hs := loopTop_full_frames (List.replicate 6000 0) (List.length_replicate 6000 0) 44739
    [ReadResult.data (List.replicate 4 AUDIO_FRAME_MARKER ++ List.replicate 6000 0)]
    (by decide)
  have hall : ∀ f ∈ List.replicate 44739 (Frame.mk 6000 (List.replicate 6000 0) 6000),
      f.len = FRAME_LEN := fun f hf => by
    rw [List.eq_of_mem_replicate hf]
    rfl
  ⟨hs, hall, (cap_reached_in_frame_44740 _ [] [] _ hs hall).2.1⟩

/-! ## More fuel, and the run of `main` -/

theorem fillLoop_mono_succ :
    ∀ (k : Nat) (s : State) (fb : List Byte) (n : Nat) (r : State × List Byte × Nat),
      fillLoop k s fb n = some r → fillLoop (k + 1) s fb n = some r := by
  intro k
  induction k with
  | zero =>
    intro s fb n r h
    by_cases hlt : n < FRAME_LEN
    · simp [fillLoop, hlt] at h
    · rw [fillLoop_done 0 s fb n hlt] at h
      rw [fillLoop_done 1 s fb n hlt, h]
  | succ k ih =>
    intro s fb n r h
    by_cases hlt : n < FRAME_LEN
    · rw [fillLoop_succ k s fb n hlt] at h
      rw [fillLoop_succ (k + 1) s fb n hlt]
      exact ih _ _ _ r h
    · rw [fillLoop_done (k + 1) s fb n hlt] at h
      rw [fillLoop_done (k + 1 + 1) s fb n hlt, h]

theorem fillLoop_mono (k k' : Nat) (s : State) (fb : List Byte) (n : Nat)
    (r : State × List Byte × Nat) (hk : k ≤ k') (h : fillLoop k s fb n = some r) :
    fillLoop k' s fb n = some r := by
  induction hk with
  | refl => exact h
  | step _ ih => exact fillLoop_mono_succ _ s fb n r ih

theorem fill_write_mono (MAX k k' : Nat) (s : State) (fb : List Byte) (n : Nat)
    (r : Status × State) (hk : k ≤ k')
    (h : (match fillLoop k s fb n with
      | none => none
      | some (s, framebuf, frame_bytes) => some (boundedWrite MAX s framebuf frame_bytes)) =
        some r) :
    (match fillLoop k' s fb n with
      | none => none
      | some (s, framebuf, frame_bytes) => some (boundedWrite MAX s framebuf frame_bytes)) =
        some r := by
  cases hf : fillLoop k s fb n with
  | none =>
    rw [hf] at h
    exact absurd h (by simp)
  | some x =>
    rw [hf] at h
    rw [fillLoop_mono k k' s fb n x hk hf]
    exact h

theorem cycle_mono (MAX k k' : Nat) (s : State) (r : Status × State) (hk : k ≤ k')
    (h : cycle MAX k s = some r) : cycle MAX k' s = some r := by
  unfold cycle at h ⊢
  generalize signals s = t at h ⊢
  simp only [] at h ⊢
  by_cases h0 : (read t.dev SERIAL_BUF_BYTES).1 = 0
  · simp only [h0, if_true] at h ⊢
    exact h
  · by_cases hneg : (read t.dev SERIAL_BUF_BYTES).1 < 0
    · simp only [h0, hneg, if_true, if_false] at h ⊢
      exact h
    · by_cases h4 : (scan (read t.dev SERIAL_BUF_BYTES).2.1 0 t.marks).2 = 4
      · simp only [h0, hneg, h4, if_false, ne_eq, not_true_eq_false] at h ⊢
        exact fill_write_mono MAX k k' _ _ _ r hk h
      · simp only [h0, hneg, h4, if_false, ne_eq, not_false_eq_true, if_true] at h ⊢
        exact h

theorem captureLoop_of_loopTop (MAX : Nat) (s0 s : State) (hs : LoopTop MAX s0 s) :
    ∃ N K, ∀ f, N ≤ f → captureLoop MAX (f + K) s0 = captureLoop MAX f s := by
  induction hs with
  | start => exact ⟨0, 0, fun f _ => rfl⟩
  | next fuel s s' _ hnd hcy ih =>
    obtain ⟨N, K, hN⟩ := ih
    refine ⟨max N fuel, K + 1, ?_⟩
    intro f hf
    have h1 : captureLoop MAX (f + (K + 1)) s0 = captureLoop MAX (f + 1) s := by
      have := hN (f + 1) (by omega)
      rw [← this]
      congr 1
      omega
    rw [h1]
    exact captureLoop_next MAX f s s' hnd (cycle_mono MAX fuel f s _ (by omega) hcy)

theorem main_eq (fuel : Nat) (dev : List ReadResult) (sink : List Nat) (sigint : List Bool) :
    main fuel dev sink sigint =
      (captureLoop WRITE_MAX_BYTES fuel (initState dev sink sigint)).map
        (fun r => (r.1, report r.2)) := by
  unfold main
  cases captureLoop WRITE_MAX_BYTES fuel (initState dev sink sigint) <;> rfl

/-! ## C10: end of stream or read error while searching -/

/-- C10: when the read at the top of a cycle returns 0 or a negative value,
the capture loop ends in that cycle (with any fuel that lets the cycle start):
as end of stream with nothing printed when the read returned 0, as a read
error with the `perror` line when it was negative. The run counter and the
`dropped` counter are as before (no scan), the `fwrite` history and the
running total are as before (nothing assembled or written), exactly one
`read` call was made (no retry), and the line printed after the loop shows
the running total `bytes` that the earlier cycles had accumulated (and that
total in MiB). So when a run of `main` reaches this loop test, `main` ends,
for every fuel large enough, with this exit and prints that total. -/
theorem failed_search_read_ends_loop (MAX fuel : Nat) (s : State)
    (hnd : s.not_done = true) (hr : (read s.dev SERIAL_BUF_BYTES).1 ≤ 0) :
    ∃ e s', captureLoop MAX (fuel + 1) s = some (e, s') ∧
      ((read s.dev SERIAL_BUF_BYTES).1 = 0 → e = Exit.eof ∧ s'.diag = s.diag) ∧
      ((read s.dev SERIAL_BUF_BYTES).1 < 0 →
        e = Exit.readError ∧ s'.diag = s.diag ++ [Diag.perrorRead]) ∧
      s'.marks = s.marks ∧ s'.dropped = s.dropped ∧ s'.written = s.written ∧
      s'.bytes = s.bytes ∧ s'.nreads = s.nreads + 1 ∧ report s' = report s ∧
      report s' = (s.bytes, s.bytes / 1024 / 1024) ∧
      (∀ g : Nat, captureLoop MAX (g + 1) s = some (e, s')) ∧
      (∀ (dev : List ReadResult) (sink : List Nat) (sigint : List Bool),
        MAX = WRITE_MAX_BYTES → LoopTop WRITE_MAX_BYTES (initState dev sink sigint) s →
        ∃ N, ∀ f, N ≤ f →
          main f dev sink sigint = some (e, s.bytes, s.bytes / 1024 / 1024)) := by
  obtain ⟨e1, e2, e3, e4, e5, e6, e7, e8⟩ := signals_fields s
  have hmain : ∀ (e : Exit) (s' : State), s'.bytes = s.bytes →
      (∀ g : Nat, captureLoop MAX (g + 1) s = some (e, s')) →
      ∀ (dev : List ReadResult) (sink : List Nat) (sigint : List Bool),
        MAX = WRITE_MAX_BYTES → LoopTop WRITE_MAX_BYTES (initState dev sink sigint) s →
        ∃ N, ∀ f, N ≤ f →
          main f dev sink sigint = some (e, s.bytes, s.bytes / 1024 / 1024) := by
    intro e s' hb hall dev sink sigint hMAX hs
    subst hMAX
    obtain ⟨N, K, hN⟩ := captureLoop_of_loopTop WRITE_MAX_BYTES _ s hs
    refine ⟨N + K + 1, ?_⟩
    intro f hf
    obtain ⟨g, hg⟩ : ∃ g, f = (g + 1) + K := ⟨f - K - 1, by omega⟩
    rw [main_eq, hg, hN (g + 1) (by omega), hall g]
    simp only [Option.map_some', report, hb]
  by_cases h0 : (read s.dev SERIAL_BUF_BYTES).1 = 0
  · have hall : ∀ g : Nat, captureLoop MAX (g + 1) s = some (Exit.eof,
        { signals s with
            dev := (read s.dev SERIAL_BUF_BYTES).2.2, nreads := s.nreads + 1 }) :=
      fun g => captureLoop_exit MAX g s _ _ hnd (cycle_eof MAX g s h0)
    refine ⟨_, _, hall fuel, ?_, ?_, e4, e5, e7, e3, rfl, ?_, ?_, hall, hmain _ _ (by exact e3) hall⟩
    · intro _
      exact ⟨rfl, e8⟩
    · intro hlt
      omega
    · unfold report
      simp only [e3]
    · unfold report
      simp only [e3]
  · have hlt : (read s.dev SERIAL_BUF_BYTES).1 < 0 := by omega
    have hall : ∀ g : Nat, captureLoop MAX (g + 1) s = some (Exit.readError,
        { signals s with
            dev := (read s.dev SERIAL_BUF_BYTES).2.2, nreads := s.nreads + 1,
            diag := s.diag ++ [Diag.perrorRead] }) :=
      fun g => captureLoop_exit MAX g s _ _ hnd (cycle_read_error MAX g s hlt)
    refine ⟨_, _, hall fuel, ?_, ?_, e4, e5, e7, e3, rfl, ?_, ?_, hall, hmain _ _ (by exact e3) hall⟩
    · intro h
      exact absurd h h0
    · intro _
      exact ⟨rfl, rfl⟩
    · unfold report
      simp only [e3]
    · unfold report
      simp only [e3]

/-- Witness of C10: a session that writes one frame of 6000 bytes and whose
next read reports an error; `main` prints 6000 bytes (0 MiB). -/
theorem failed_search_read_ends_loop_witness :
    ({ initState [ReadResult.error] [] [] with
        nreads := 1, bytes := 1 * 6000,
        written := List.replicate 1 (Frame.mk 6000 (List.replicate 6000 0) 6000) }
      : State).not_done = true ∧
    (read ({ initState [ReadResult.error] [] [] with
        nreads := 1, bytes := 1 * 6000,
        written := List.replicate 1 (Frame.mk 6000 (List.replicate 6000 0) 6000) }
      : State).dev SERIAL_BUF_BYTES).1 ≤ 0 ∧
    ∃ N, ∀ f, N ≤ f →
      main f (List.replicate 1
          (ReadResult.data (List.replicate 4 AUDIO_FRAME_MARKER ++ List.replicate 6000 0)) ++
          [ReadResult.error]) [] [] =
        some (Exit.readError, 6000, 0) := by
  have hs := loopTop_full_frames (List.replicate 6000 0) (List.length_replicate 6000 0) 1
    [ReadResult.error] (by decide)
  obtain ⟨e, s', _, _, hneg, _, _, _, _, _, _, _, _, hmain⟩ :=
    failed_search_read_ends_loop WRITE_MAX_BYTES 0
      { initState [ReadResult.error] [] [] with
          nreads := 1, bytes := 1 * 6000,
          written := List.replicate 1 (Frame.mk 6000 (List.replicate 6000 0) 6000) }
      rfl (by decide)
  have he : e = Exit.readError := (hneg (by decide)).1
  subst he
  exact ⟨rfl, by decide, hmain _ [] [] rfl hs⟩

end SonycRecord
